import Mathlib

/-!
Verification of the age-orm serialization, query-building and entity-state
subsystems.  The definitions below are shallow embeddings of the Python
sources (src/age_orm/utils/serialization.py, src/age_orm/query/builder.py,
src/age_orm/graph.py, src/age_orm/models/base.py); text is modelled as
`List Char`, Python values as the inductive `PyVal`, and machine behaviour
such as regular-expression substitution is modelled by explicit scanners.
-/

namespace AgeOrm

/-- The opening-brace character, written numerically. -/
def lbrace : Char := Char.ofNat 123

/-- The closing-brace character, written numerically. -/
def rbrace : Char := Char.ofNat 125

/-- Word characters of the regexes in serialization.py and graph.py:
the class [a-zA-Z0-9_]. -/
def isWordChar (c : Char) : Bool :=
  ('a' ≤ c && c ≤ 'z') || ('A' ≤ c && c ≤ 'Z') || ('0' ≤ c && c ≤ '9') || c = '_'

/-- Python `str.strip()` whitespace (ASCII part). -/
def isPyWs (c : Char) : Bool :=
  c = ' ' || c = '\t' || c = '\n' || c = '\r' || c = '\x0b' || c = '\x0c'

/-- Python `str.strip()`: drop leading then trailing whitespace. -/
def pyStrip (s : List Char) : List Char :=
  ((s.dropWhile isPyWs).reverse.dropWhile isPyWs).reverse

/-- Python `str.replace(needle, repl)` for a one-character needle,
as used throughout serialization.py. -/
def charReplace (needle : Char) (repl : List Char) (s : List Char) : List Char :=
  s.flatMap (fun c => if c = needle then repl else [c])

/-- Lower-case hexadecimal digit, matching Python format `x`. -/
def hexDigitChar (n : Nat) : Char :=
  if n < 10 then Char.ofNat (48 + n) else Char.ofNat (87 + n)

/-- Four lower-case hex digits, matching the Python format `{code:04x}`
for code points below 0x10000. -/
def hex4 (n : Nat) : List Char :=
  [hexDigitChar (n / 4096 % 16), hexDigitChar (n / 256 % 16),
   hexDigitChar (n / 16 % 16), hexDigitChar (n % 16)]

/-- Decimal digit character. -/
def decDigitChar (n : Nat) : Char := Char.ofNat (48 + n)

/-- Most-significant-first decimal digits of a natural number, accumulator
style; the fuel argument only forces termination and is always at least the
number of digits at call sites. -/
def natToCharsAux : Nat → Nat → List Char → List Char
  | 0, _, acc => acc
  | fuel+1, n, acc =>
    if n < 10 then decDigitChar n :: acc
    else natToCharsAux fuel (n / 10) (decDigitChar (n % 10) :: acc)

/-- Decimal rendering of a natural number, as Python `str` produces it. -/
def natToChars (n : Nat) : List Char := natToCharsAux (n + 1) n []

/-- Decimal rendering of an integer, as Python `str` produces it. -/
def intToChars : Int → List Char
  | Int.ofNat n => natToChars n
  | Int.negSucc m => '-' :: natToChars (m + 1)

/-- Python values handled by the age-orm value codec: `None`, booleans,
integers, floats, strings, lists and string-keyed dicts.  Floats are carried
as their `repr` text because floating-point formatting is not modelled. -/
inductive PyVal where
  | none : PyVal
  | bool (b : Bool) : PyVal
  | int (n : Int) : PyVal
  | float (lit : List Char) : PyVal
  | str (s : List Char) : PyVal
  | list (xs : List PyVal) : PyVal
  | dict (xs : List (List Char × PyVal)) : PyVal

mutual

/-- Structural boolean equality on `PyVal`. -/
def beqPyVal : PyVal → PyVal → Bool
  | PyVal.none, PyVal.none => true
  | PyVal.bool x, PyVal.bool y => x = y
  | PyVal.int x, PyVal.int y => x = y
  | PyVal.float x, PyVal.float y => x = y
  | PyVal.str x, PyVal.str y => x = y
  | PyVal.list xs, PyVal.list ys => beqPyList xs ys
  | PyVal.dict xs, PyVal.dict ys => beqPyDict xs ys
  | _, _ => false

/-- Structural boolean equality on lists of `PyVal`. -/
def beqPyList : List PyVal → List PyVal → Bool
  | [], [] => true
  | x :: xs, y :: ys => beqPyVal x y && beqPyList xs ys
  | _, _ => false

/-- Structural boolean equality on `PyVal` association lists. -/
def beqPyDict : List (List Char × PyVal) → List (List Char × PyVal) → Bool
  | [], [] => true
  | (k, v) :: xs, (l, w) :: ys => k = l && beqPyVal v w && beqPyDict xs ys
  | _, _ => false

end

mutual

theorem beqPyVal_implies_eq : ∀ a b, beqPyVal a b = true → a = b
  | PyVal.none, b => by cases b <;> simp [beqPyVal]
  | PyVal.bool x, b => by cases b <;> simp [beqPyVal]
  | PyVal.int x, b => by cases b <;> simp [beqPyVal]
  | PyVal.float x, b => by cases b <;> simp [beqPyVal]
  | PyVal.str x, b => by cases b <;> simp [beqPyVal]
  | PyVal.list xs, b => by
      cases b <;> simp [beqPyVal]
      exact beqPyList_implies_eq xs _
  | PyVal.dict xs, b => by
      cases b <;> simp [beqPyVal]
      exact beqPyDict_implies_eq xs _

theorem beqPyList_implies_eq : ∀ a b, beqPyList a b = true → a = b
  | [], b => by cases b <;> simp [beqPyList]
  | x :: xs, b => by
      cases b with
      | nil => simp [beqPyList]
      | cons y ys =>
        simp only [beqPyList, Bool.and_eq_true, List.cons.injEq]
        exact fun h => ⟨beqPyVal_implies_eq x y h.1, beqPyList_implies_eq xs ys h.2⟩

theorem beqPyDict_implies_eq : ∀ a b, beqPyDict a b = true → a = b
  | [], b => by cases b <;> simp [beqPyDict]
  | (k, v) :: xs, b => by
      cases b with
      | nil => simp [beqPyDict]
      | cons p ys =>
        obtain ⟨l, w⟩ := p
        intro h
        simp only [beqPyDict, Bool.and_eq_true, decide_eq_true_eq] at h
        obtain ⟨⟨h1, h2⟩, h3⟩ := h
        rw [h1, beqPyVal_implies_eq v w h2, beqPyDict_implies_eq xs ys h3]

end

mutual

theorem beqPyVal_refl : ∀ a, beqPyVal a a = true
  | PyVal.none => rfl
  | PyVal.bool x => by simp [beqPyVal]
  | PyVal.int x => by simp [beqPyVal]
  | PyVal.float x => by simp [beqPyVal]
  | PyVal.str x => by simp [beqPyVal]
  | PyVal.list xs => by simp only [beqPyVal]; exact beqPyList_refl xs
  | PyVal.dict xs => by simp only [beqPyVal]; exact beqPyDict_refl xs

theorem beqPyList_refl : ∀ a, beqPyList a a = true
  | [] => rfl
  | x :: xs => by
      simp only [beqPyList, Bool.and_eq_true]
      exact ⟨beqPyVal_refl x, beqPyList_refl xs⟩

theorem beqPyDict_refl : ∀ a, beqPyDict a a = true
  | [] => rfl
  | (k, v) :: xs => by
      simp only [beqPyDict, Bool.and_eq_true, decide_eq_true_eq]
      refine ⟨⟨by simp, beqPyVal_refl v⟩, beqPyDict_refl xs⟩

end

instance : DecidableEq PyVal := fun a b =>
  if h : beqPyVal a b = true then isTrue (beqPyVal_implies_eq a b h)
  else isFalse fun he => h (he ▸ beqPyVal_refl a)

/-- `escape_agtype_string`, step 1-5: the sequential single-character
replaces for backslash, quote, newline, carriage return and tab. -/
def escapeAgtypeReplaces (s : List Char) : List Char :=
  charReplace '\t' ['\\', 't']
    (charReplace '\r' ['\\', 'r']
      (charReplace '\n' ['\\', 'n']
        (charReplace '"' ['\\', '"']
          (charReplace '\\' ['\\', '\\'] s))))

/-- `escape_agtype_string`, final pass: remaining control characters below
0x20 (other than newline, carriage return, tab — already replaced) become
`\uXXXX` escapes. -/
def escapeControl (s : List Char) : List Char :=
  s.flatMap (fun c =>
    if c.toNat < 32 && !(c = '\n' || c = '\r' || c = '\t') then
      '\\' :: 'u' :: hex4 c.toNat
    else [c])

/-- `escape_agtype_string` from serialization.py (on an actual string;
the `None` short-circuit of the source returns the empty string and is
subsumed by the empty list). -/
def escapeAgtypeString (s : List Char) : List Char :=
  escapeControl (escapeAgtypeReplaces s)

/-- `escape_sql_literal`: double every single quote. -/
def escapeSqlLiteral (s : List Char) : List Char :=
  charReplace '\'' ['\'', '\''] s

mutual

/-- `to_agtype_value` from serialization.py: agtype text for a Python value
(the final `else` branch of the source stringifies unknown objects and is
unreachable for the value types modelled here). -/
def toAgtypeValue : PyVal → List Char
  | PyVal.none => ("null").toList
  | PyVal.bool true => ("true").toList
  | PyVal.bool false => ("false").toList
  | PyVal.int n => intToChars n
  | PyVal.float lit => lit
  | PyVal.str s => '"' :: escapeAgtypeString s ++ ['"']
  | PyVal.list xs => '[' :: toAgtypeList xs ++ [']']
  | PyVal.dict xs => lbrace :: toAgtypeDict xs ++ [rbrace]

/-- The `", ".join` of encoded list items in `to_agtype_value`. -/
def toAgtypeList : List PyVal → List Char
  | [] => []
  | [v] => toAgtypeValue v
  | v :: rest => toAgtypeValue v ++ ',' :: ' ' :: toAgtypeList rest

/-- The `", ".join` of `"key": value` entries in `to_agtype_value`
(keys are interpolated verbatim, not escaped, exactly as in the source). -/
def toAgtypeDict : List (List Char × PyVal) → List Char
  | [] => []
  | [(k, v)] => '"' :: k ++ '"' :: ':' :: ' ' :: toAgtypeValue v
  | (k, v) :: rest =>
    ('"' :: k ++ '"' :: ':' :: ' ' :: toAgtypeValue v) ++ ',' :: ' ' :: toAgtypeDict rest

end

/-- The string escaping of `format_cypher_value`: backslashes doubled, then
single quotes backslash-escaped. -/
def escapeCypherString (s : List Char) : List Char :=
  charReplace '\'' ['\\', '\''] (charReplace '\\' ['\\', '\\'] s)

mutual

/-- `format_cypher_value` from serialization.py: Cypher-literal text for a
Python value (single-quoted strings, unquoted map keys). -/
def formatCypherValue : PyVal → List Char
  | PyVal.none => ("null").toList
  | PyVal.bool true => ("true").toList
  | PyVal.bool false => ("false").toList
  | PyVal.int n => intToChars n
  | PyVal.float lit => lit
  | PyVal.str s => '\'' :: escapeCypherString s ++ ['\'']
  | PyVal.list xs => '[' :: formatCypherList xs ++ [']']
  | PyVal.dict xs => lbrace :: formatCypherDict xs ++ [rbrace]

/-- The `", ".join` of formatted list items in `format_cypher_value`. -/
def formatCypherList : List PyVal → List Char
  | [] => []
  | [v] => formatCypherValue v
  | v :: rest => formatCypherValue v ++ ',' :: ' ' :: formatCypherList rest

/-- The `", ".join` of `key: value` entries in `format_cypher_value`. -/
def formatCypherDict : List (List Char × PyVal) → List Char
  | [] => []
  | [(k, v)] => k ++ ':' :: ' ' :: formatCypherValue v
  | (k, v) :: rest =>
    (k ++ ':' :: ' ' :: formatCypherValue v) ++ ',' :: ' ' :: formatCypherDict rest

end

/-- The negative lookahead `(?![a-zA-Z0-9_])` of `substitute_cypher_params`:
true when the scan position starts with a word character. -/
def identAt : List Char → Bool
  | [] => false
  | c :: _ => isWordChar c

/-- One `re.sub` pass of `substitute_cypher_params` for a single key: scan
left to right; at each `$` followed by the key and not followed by a word
character, emit the replacement and continue after the match.  The fuel
argument only forces termination; call sites pass the text length, which is
an upper bound on the number of scan steps. -/
def substOneF (key repl : List Char) : Nat → List Char → List Char
  | 0, s => s
  | _+1, [] => []
  | fuel+1, c :: rest =>
    if c = '$' && key.isPrefixOf rest && !identAt (rest.drop key.length) then
      repl ++ substOneF key repl fuel (rest.drop key.length)
    else c :: substOneF key repl fuel rest

/-- One placeholder substitution pass (`re.sub` of `\$key(?![a-zA-Z0-9_])`). -/
def substOne (key repl s : List Char) : List Char := substOneF key repl s.length s

/-- Parameter mappings, in Python dict insertion order. -/
abbrev Params := List (List Char × PyVal)

/-- Stable insertion by descending key length: an element is placed after
every earlier element of greater *or equal* key length, exactly the order
`sorted(params.keys(), key=len, reverse=True)` produces. -/
def insertParamByLen (x : List Char × PyVal) : Params → Params
  | [] => [x]
  | y :: ys => if x.1.length ≤ y.1.length then y :: insertParamByLen x ys
               else x :: y :: ys

/-- Stable sort of the parameters by descending key length, modelling
`sorted(params.keys(), key=len, reverse=True)`. -/
def sortParamsByLenDesc : Params → Params
  | [] => []
  | x :: xs => insertParamByLen x (sortParamsByLenDesc xs)

/-- `substitute_cypher_params` from serialization.py: empty parameters
return the text untouched; otherwise one substitution pass per key, longest
keys first, each replacement being the `format_cypher_value` text. -/
def substituteCypherParams (cypher : List Char) (params : Params) : List Char :=
  if params.isEmpty then cypher
  else (sortParamsByLenDesc params).foldl
    (fun acc kv => substOne kv.1 (formatCypherValue kv.2) acc) cypher

/-- Auxiliary for C1: a substitution pass leaves the text unchanged when every
occurrence of `$key` in it is immediately followed by a word character (the
placeholder name is a proper prefix of a longer identifier there), thanks to
the negative lookahead in the compiled pattern. -/
theorem substOneF_guard (key repl : List Char) : ∀ (fuel : Nat) (text : List Char),
    text.length ≤ fuel →
    (∀ i, i < text.length → ('$' :: key).isPrefixOf (text.drop i) = true →
      identAt (text.drop (i + (key.length + 1))) = true) →
    substOneF key repl fuel text = text := by
  intro fuel
  induction fuel with
  | zero =>
    intro text hlen _
    have htext : text = [] := List.eq_nil_of_length_eq_zero (Nat.le_zero.mp hlen)
    subst htext
    rfl
  | succ fuel ih =>
    intro text hlen hg
    cases text with
    | nil => rfl
    | cons c rest =>
      simp only [substOneF]
      by_cases hc : (c = '$' && key.isPrefixOf rest && !identAt (rest.drop key.length)) = true
      · exfalso
        simp only [Bool.and_eq_true, decide_eq_true_eq, Bool.not_eq_true'] at hc
        obtain ⟨⟨hc1, hc2⟩, hc3⟩ := hc
        have h0 := hg 0 (by simp) (by
          subst hc1
          simp [List.isPrefixOf, hc2])
        rw [Nat.zero_add, List.drop_succ_cons] at h0
        rw [h0] at hc3
        simp at hc3
      · rw [if_neg hc]
        have hrec : substOneF key repl fuel rest = rest := by
          apply ih rest
          · have := hlen
            simp only [List.length_cons] at this
            omega
          · intro i hi hpre
            have := hg (i + 1) (by simp only [List.length_cons]; omega)
              (by rw [List.drop_succ_cons]; exact hpre)
            rw [show i + 1 + (key.length + 1) = (i + (key.length + 1)) + 1 from by omega,
              List.drop_succ_cons] at this
            exact this
        rw [hrec]

/-- C1: for the modelled substitution, each `$name` placeholder is replaced by
the `format_cypher_value` (query-literal) encoding of its value, names are
processed longest-first, and an occurrence of a name that is a proper prefix
of a longer identifier (hence followed by a word character) is never matched:
concretely, substituting age=20 and age_max=50 into `$age < $age_max` yields
`20 < 50`, and in general a pass for a key whose every occurrence is followed
by a word character leaves the text unchanged. -/
theorem substitute_cypher_params_spec :
    substituteCypherParams (("$age < $age_max").toList)
        [((("age").toList), PyVal.int 20), ((("age_max").toList), PyVal.int 50)] =
      ("20 < 50").toList
    ∧ ∀ (key repl text : List Char),
        (∀ i, i < text.length → ('$' :: key).isPrefixOf (text.drop i) = true →
          identAt (text.drop (i + (key.length + 1))) = true) →
        substOne key repl text = text := by
  constructor
  · decide
  · intro key repl text hg
    exact substOneF_guard key repl text.length text (Nat.le_refl _) hg

/-- Witness for C1: the guard of `substitute_cypher_params_spec` discharges at
the concrete text `$age_max` with key `age`, which is left untouched. -/
theorem substitute_cypher_params_spec_witness :
    substOne (("age").toList) (("20").toList) (("$age_max").toList) =
      ("$age_max").toList :=
  substitute_cypher_params_spec.2 (("age").toList) (("20").toList)
    (("$age_max").toList) (by decide)

/-- Python-dict assignment `d[k] = v` on an insertion-ordered association
list: overwrite in place if the key exists, else append at the end. -/
def dictSet {κ α : Type} [DecidableEq κ] : List (κ × α) → κ → α → List (κ × α)
  | [], k, v => [(k, v)]
  | (k1, v1) :: tl, k, v =>
    if k1 = k then (k1, v) :: tl else (k1, v1) :: dictSet tl k v

/-- Python-dict lookup `d[k]` / `d.get(k)` on an association list. -/
def lookupAssoc {κ α : Type} [DecidableEq κ] : List (κ × α) → κ → Option α
  | [], _ => Option.none
  | (k1, v1) :: tl, k => if k1 = k then some v1 else lookupAssoc tl k

/-- Python-dict `k in d`. -/
def hasKeyAssoc {κ α : Type} [DecidableEq κ] (xs : List (κ × α)) (k : κ) : Bool :=
  (lookupAssoc xs k).isSome

/-- Python-dict `d.pop(k)`, key-removal part. -/
def eraseAssoc {κ α : Type} [DecidableEq κ] : List (κ × α) → κ → List (κ × α)
  | [], _ => []
  | (k1, v1) :: tl, k => if k1 = k then tl else (k1, v1) :: eraseAssoc tl k

/-- The mutable per-instance state of an `AgeModel` entity
(src/age_orm/models/base.py): the declared pydantic field names, the subset
that are relationship slots, the current persisted-field values, the resolved
relationship cache `_age_refs_vals`, the graph identity `_age_graph_id`, the
binding `_age_db`/`_age_graph` (opaque handles: only presence matters), and
the dirty set `_age_dirty`. -/
structure EntityState where
  modelFields : Finset String
  refs : Finset String
  vals : List (String × PyVal)
  refsVals : List (String × PyVal)
  graphId : Option Int
  db : Option Unit
  graph : Option Unit
  dirty : Finset String
deriving DecidableEq

/-- The declared persisted fields: `model_fields` minus relationship slots,
the separation performed by `AgeModel.__init__`. -/
def EntityState.persistedFields (e : EntityState) : Finset String :=
  e.modelFields \ e.refs

/-- `AgeModel.__init__`: relationship slots are separated from data fields,
internal state is initialised from the `_graph_id`/`_db`/`_graph` kwargs, the
relationship cache starts empty, and the dirty set is the full persisted
field set when no `_db` kwarg was given, else empty. -/
def initEntity (modelFields refs : Finset String) (vals : List (String × PyVal))
    (graphId : Option Int) (db graph : Option Unit) : EntityState :=
  { modelFields := modelFields
    refs := refs
    vals := vals
    refsVals := []
    graphId := graphId
    db := db
    graph := graph
    dirty := if db.isSome then ∅ else modelFields \ refs }

/-- `dict_to_model` from serialization.py: construct the instance from the
properties alone (no `_db` kwarg), then assign `_graph_id`, `_dirty = set()`,
`_db` and `_graph`. -/
def dictToModel (modelFields refs : Finset String) (props : List (String × PyVal))
    (graphId : Option Int) (db graph : Option Unit) : EntityState :=
  let inst := initEntity modelFields refs props Option.none Option.none Option.none
  { inst with graphId := graphId, dirty := ∅, db := db, graph := graph }

/-- The dirty-set clearing performed after successful persistence
(`entity._dirty.clear()` in graph.py, `instance._dirty = set()` in
serialization.py); the specification calls this `mark_clean()`. -/
def markClean (e : EntityState) : EntityState := { e with dirty := ∅ }

/-- Python `attr.startswith("_")`: the attribute text begins with an
underscore. -/
def startsUnderscore (s : String) : Bool :=
  match s.toList with
  | c :: _ => c = '_'
  | [] => false

/-- `AgeModel.__setattr__`: internal and `model_config` attributes bypass
dirty tracking; otherwise the value is stored and, when the attribute is a
declared model field that is not a relationship slot, added to the dirty
set. -/
def setFieldAssign (e : EntityState) (attr : String) (v : PyVal) : EntityState :=
  if startsUnderscore attr || attr = "model_config" then e
  else
    let e1 := { e with vals := dictSet e.vals attr v }
    if attr ∈ e.modelFields ∧ attr ∉ e.refs then
      { e1 with dirty := insert attr e1.dirty }
    else e1

/-- Observable outcome of a relationship attribute access in
`AgeModel.__getattribute__`. -/
inductive RelAccess where
  | cachedVal (v : PyVal) : RelAccess
  | detached : RelAccess
  | load (targetLabel : String) : RelAccess
deriving DecidableEq

/-- The relationship branch of `AgeModel.__getattribute__` (lines 108-149):
a cached value in `_age_refs_vals` is returned first; only then, a missing
`_age_db` or `_age_graph` raises `DetachedInstanceError`; otherwise a
traversal query is issued against the bound graph (abstracted as `load`). -/
def getRelationship (e : EntityState) (item : String) (targetLabel : String) :
    RelAccess :=
  match lookupAssoc e.refsVals item with
  | some v => RelAccess.cachedVal v
  | Option.none =>
    if e.db.isNone || e.graph.isNone then RelAccess.detached
    else RelAccess.load targetLabel

/-- Failure raised by `Graph.delete` / `Graph.update` on an unpersisted
entity (`EntityNotFoundError` in exceptions.py). -/
inductive GraphOpError where
  | entityNotFound : GraphOpError
deriving DecidableEq

/-- `Graph.delete` (graph.py lines 152-169), effect on the entity: requires a
`graph_id`, issues the deletion statement, then clears `_graph_id`, `_db` and
`_graph` — and nothing else. -/
def graphDelete (e : EntityState) : Except GraphOpError EntityState :=
  match e.graphId with
  | Option.none => Except.error GraphOpError.entityNotFound
  | some _ =>
    Except.ok { e with graphId := Option.none, db := Option.none, graph := Option.none }

/-- Failures of `Query.one` (exceptions.py: `EntityNotFoundError`, called
`NotFoundError` in the specification, and `MultipleResultsError`). -/
inductive QueryOneError where
  | notFound : QueryOneError
  | multipleResults : QueryOneError
deriving DecidableEq

/-- `Query.one` from builder.py: materialise all results; zero results raise
the not-found error, more than one the multiple-results error, exactly one is
returned (`results[0]`). -/
def queryOne {α : Type} : List α → Except QueryOneError α
  | [] => Except.error QueryOneError.notFound
  | x :: rest =>
    if rest.isEmpty then Except.ok x else Except.error QueryOneError.multipleResults

/-- C3: a transient construction (no `_db` kwarg) starts with the dirty set
equal to all declared persisted field names; constructions and hydrations
carrying a database binding start clean; clearing (the spec name is
`mark_clean`) empties the dirty set; and assigning a persisted field puts its
name into the dirty set. -/
theorem dirty_set_lifecycle :
    (∀ (mf refs : Finset String) (vals : List (String × PyVal)) (gid : Option Int)
        (graph : Option Unit),
      (initEntity mf refs vals gid Option.none graph).dirty = mf \ refs)
    ∧ (∀ (mf refs : Finset String) (vals : List (String × PyVal)) (gid : Option Int)
        (u : Unit) (graph : Option Unit),
      (initEntity mf refs vals gid (some u) graph).dirty = ∅)
    ∧ (∀ (mf refs : Finset String) (props : List (String × PyVal)) (gid : Option Int)
        (db graph : Option Unit),
      (dictToModel mf refs props gid db graph).dirty = ∅)
    ∧ (∀ e : EntityState, (markClean e).dirty = ∅)
    ∧ (∀ (e : EntityState) (x : String) (v : PyVal),
        x ∈ e.modelFields → x ∉ e.refs →
        startsUnderscore x = false → x ≠ "model_config" →
        x ∈ (setFieldAssign e x v).dirty) := by
  refine ⟨?_, ?_, ?_, ?_, ?_⟩
  · intro mf refs vals gid graph
    simp [initEntity]
  · intro mf refs vals gid u graph
    simp [initEntity]
  · intro mf refs props gid db graph
    rfl
  · intro e
    rfl
  · intro e x v hmem hnref hst hmc
    simp only [setFieldAssign, hst, Bool.false_or]
    rw [if_neg (by simp [hmc]), if_pos (And.intro hmem hnref)]
    exact Finset.mem_insert_self x _

/-- Witness for C3: on a concrete entity with persisted fields name/age and
relationship slot friends, assigning age marks it dirty. -/
theorem dirty_set_lifecycle_witness :
    ("age") ∈ (setFieldAssign
        (initEntity ({"name", "age"}) ({"friends"}) [] Option.none Option.none
          Option.none)
        ("age") (PyVal.int 30)).dirty :=
  dirty_set_lifecycle.2.2.2.2 _ ("age") (PyVal.int 30) (by decide) (by decide)
    (by decide) (by decide)

/-- C5: `one()` fails with the not-found error on zero results, with the
multiple-results error on more than one, and returns the single entity on
exactly one. -/
theorem query_one_cardinality :
    (∀ (α : Type) (l : List α), l = [] →
      queryOne l = Except.error QueryOneError.notFound)
    ∧ (∀ (α : Type) (l : List α), 1 < l.length →
      queryOne l = Except.error QueryOneError.multipleResults)
    ∧ (∀ (α : Type) (x : α), queryOne [x] = Except.ok x) := by
  refine ⟨?_, ?_, ?_⟩
  · intro α l h
    subst h
    rfl
  · intro α l h
    match l with
    | [] => simp at h
    | [x] => simp at h
    | x :: y :: rest => simp [queryOne]
  · intro α x
    rfl

/-- Witness for C5 at concrete result lists of size zero, two and one. -/
theorem query_one_cardinality_witness :
    queryOne ([] : List Nat) = Except.error QueryOneError.notFound
    ∧ queryOne [3, 4] = Except.error QueryOneError.multipleResults
    ∧ queryOne [5] = Except.ok 5 :=
  ⟨query_one_cardinality.1 Nat [] rfl,
   query_one_cardinality.2.1 Nat [3, 4] (by decide),
   query_one_cardinality.2.2 Nat 5⟩

/-- C6 counterexample: the cache lookup precedes the binding check in
`AgeModel.__getattribute__`, so an entity with no binding but a cached
relationship value returns the cached value instead of raising
`DetachedInstanceError` — refuting the claim that a missing binding raises
regardless of any other entity state. -/
theorem get_relationship_detached_counterexample :
    getRelationship
        { modelFields := {"name"}, refs := {"friends"}, vals := [],
          refsVals := [(("friends"), PyVal.list [])], graphId := Option.none,
          db := Option.none, graph := Option.none, dirty := ∅ }
        ("friends") ("Person") ≠ RelAccess.detached := by
  decide

/-- C6 amended: accessing a declared relationship on an entity whose binding
is absent raises `DetachedInstanceError`, provided the slot has no cached
value (the cache, checked first, short-circuits the binding check). -/
theorem get_relationship_detached_uncached (e : EntityState)
    (item targetLabel : String)
    (hcache : lookupAssoc e.refsVals item = Option.none)
    (hbind : e.db = Option.none ∨ e.graph = Option.none) :
    getRelationship e item targetLabel = RelAccess.detached := by
  unfold getRelationship
  rw [hcache]
  rcases hbind with h | h <;> simp [h]

/-- Witness for the amended C6: a concrete transient entity with an empty
relationship cache raises on relationship access. -/
theorem get_relationship_detached_uncached_witness :
    getRelationship
        { modelFields := {"name"}, refs := {"friends"}, vals := [],
          refsVals := [], graphId := Option.none, db := Option.none,
          graph := Option.none, dirty := ∅ }
        ("friends") ("Person") = RelAccess.detached :=
  get_relationship_detached_uncached _ ("friends") ("Person") rfl (Or.inl rfl)

/-- C10: on a persisted entity, `Graph.delete` succeeds and clears exactly
the identity and the binding, leaving the persisted field values, the dirty
set, the relationship cache and the declared field sets unchanged. -/
theorem graph_delete_frame (e : EntityState) (i : Int) (h : e.graphId = some i) :
    ∃ e1, graphDelete e = Except.ok e1
      ∧ e1.graphId = Option.none ∧ e1.db = Option.none ∧ e1.graph = Option.none
      ∧ e1.vals = e.vals ∧ e1.dirty = e.dirty ∧ e1.refsVals = e.refsVals
      ∧ e1.modelFields = e.modelFields ∧ e1.refs = e.refs := by
  unfold graphDelete
  rw [h]
  exact ⟨_, rfl, rfl, rfl, rfl, rfl, rfl, rfl, rfl, rfl⟩

/-- Witness for C10 on a concrete persisted entity. -/
theorem graph_delete_frame_witness :
    ∃ e1, graphDelete
        { modelFields := {"name"}, refs := ∅, vals := [(("name"), PyVal.int 1)],
          refsVals := [], graphId := some 7, db := some (), graph := some (),
          dirty := {"name"} } = Except.ok e1
      ∧ e1.graphId = Option.none ∧ e1.db = Option.none ∧ e1.graph = Option.none
      ∧ e1.vals = [(("name"), PyVal.int 1)] ∧ e1.dirty = {"name"}
      ∧ e1.refsVals = [] ∧ e1.modelFields = {"name"} ∧ e1.refs = ∅ :=
  graph_delete_frame _ 7 rfl

/-- Python `", ".join` and friends: join text chunks with a separator. -/
def joinSep (sep : List Char) : List (List Char) → List Char
  | [] => []
  | [x] => x
  | x :: rest => x ++ sep ++ joinSep sep rest

/-- The accumulator state of the fluent `Query` builder (builder.py):
the label of the matched node, the append-only filter list (condition text
with its joiner, `AND`/`OR` text or none for the first filter), the sort
columns, limit and skip, the optional projection list, and the bind-variable
dict. -/
structure QueryState where
  label : List Char
  filters : List (List Char × Option (List Char))
  sortColumns : List (List Char)
  limitN : Option Int
  skipN : Int
  returnFields : Option (List (List Char))
  bindVars : Params

/-- `Query.__init__`: empty filters, sorts and bind variables, no limit,
zero skip, no projection. -/
def initQuery (label : List Char) : QueryState :=
  { label := label, filters := [], sortColumns := [], limitN := Option.none,
    skipN := 0, returnFields := Option.none, bindVars := [] }

/-- Python `dict.update`: fold the new pairs into the dict in order. -/
def updateParams (d : Params) (kwargs : Params) : Params :=
  kwargs.foldl (fun acc kv => dictSet acc kv.1 kv.2) d

/-- `Query.filter`: append the condition with joiner none when first, else
`OR`/`AND` according to the flag, and merge the bind variables. -/
def filterOp (q : QueryState) (cond : List Char) (isOr : Bool) (kwargs : Params) :
    QueryState :=
  let joiner := if q.filters.isEmpty then Option.none
    else some (if isOr then ("OR").toList else ("AND").toList)
  { q with filters := q.filters ++ [(cond, joiner)],
           bindVars := updateParams q.bindVars kwargs }

/-- `Query.sort`: append a sort column. -/
def sortOp (q : QueryState) (field : List Char) : QueryState :=
  { q with sortColumns := q.sortColumns ++ [field] }

/-- `Query.limit`: overwrite limit and skip. -/
def limitOp (q : QueryState) (count : Int) (skip : Int) : QueryState :=
  { q with limitN := some count, skipN := skip }

/-- `Query.returns`: overwrite the projection list. -/
def returnsOp (q : QueryState) (fields : List (List Char)) : QueryState :=
  { q with returnFields := some fields }

/-- `Query._build_match_where`: `MATCH (n:Label)` followed, when filters
exist, by a newline and `WHERE` with the joined filter conditions after
bind-variable substitution. -/
def buildMatchWhere (q : QueryState) : List Char :=
  let cypher := ("MATCH (n:").toList ++ q.label ++ [')']
  if q.filters.isEmpty then cypher
  else
    let whereParts := q.filters.map (fun fc =>
      match fc.2 with
      | Option.none => fc.1
      | some j => j ++ ' ' :: fc.1)
    let whereClause := substituteCypherParams (joinSep [' '] whereParts) q.bindVars
    cypher ++ '\n' :: ("WHERE ").toList ++ whereClause

/-- The `RETURN` clause of `Query._build_cypher`: the projection fields when
the projection list is truthy (non-empty), else the bare pattern variable. -/
def returnClause (q : QueryState) : List Char :=
  match q.returnFields with
  | some (f :: fs) => '\n' :: ("RETURN ").toList ++ joinSep ((", ").toList) (f :: fs)
  | _ => '\n' :: ("RETURN n").toList

/-- The `ORDER BY` clause: present exactly when sort columns exist. -/
def orderClause (q : QueryState) : List Char :=
  if q.sortColumns.isEmpty then []
  else '\n' :: ("ORDER BY ").toList ++ joinSep ((", ").toList) q.sortColumns

/-- The `SKIP` clause: present exactly when skip is positive. -/
def skipClause (q : QueryState) : List Char :=
  if q.skipN > 0 then '\n' :: ("SKIP ").toList ++ intToChars q.skipN else []

/-- The `LIMIT` clause: present exactly when a limit is set. -/
def limitClause (q : QueryState) : List Char :=
  match q.limitN with
  | some l => '\n' :: ("LIMIT ").toList ++ intToChars l
  | Option.none => []

/-- `Query._build_cypher`: the incremental appends of the source, in its
fixed order MATCH/WHERE, RETURN, ORDER BY, SKIP, LIMIT. -/
def buildCypher (q : QueryState) : List Char :=
  let cypher := buildMatchWhere q
  let cypher := cypher ++ (match q.returnFields with
    | some (f :: fs) => '\n' :: ("RETURN ").toList ++ joinSep ((", ").toList) (f :: fs)
    | _ => '\n' :: ("RETURN n").toList)
  let cypher := if q.sortColumns.isEmpty then cypher
    else cypher ++ '\n' :: ("ORDER BY ").toList ++ joinSep ((", ").toList) q.sortColumns
  let cypher := if q.skipN > 0 then cypher ++ '\n' :: ("SKIP ").toList ++ intToChars q.skipN
    else cypher
  match q.limitN with
  | some l => cypher ++ '\n' :: ("LIMIT ").toList ++ intToChars l
  | Option.none => cypher

/-- C4: lowering emits the clauses in the fixed order — MATCH, WHERE only
when filters exist, RETURN (projection or bare `n`), ORDER BY only when sort
columns exist, then SKIP (only when positive) and LIMIT (only when set); in
particular `sort("n.age")` then `limit(2, skip=1)` builds
`MATCH (n:L)\nRETURN n\nORDER BY n.age\nSKIP 1\nLIMIT 2` with no WHERE. -/
theorem build_cypher_clause_order :
    (∀ q : QueryState,
      buildCypher q =
        buildMatchWhere q ++ returnClause q ++ orderClause q ++ skipClause q
          ++ limitClause q)
    ∧ (∀ q : QueryState, q.filters = [] →
      buildMatchWhere q = ("MATCH (n:").toList ++ q.label ++ [')'])
    ∧ (∀ label : List Char,
      buildCypher (limitOp (sortOp (initQuery label) (("n.age").toList)) 2 1) =
        ("MATCH (n:").toList ++ label
          ++ (")\nRETURN n\nORDER BY n.age\nSKIP 1\nLIMIT 2").toList) := by
  refine ⟨?_, ?_, ?_⟩
  · intro q
    simp only [buildCypher, returnClause, orderClause, skipClause, limitClause]
    by_cases hs : q.sortColumns.isEmpty <;>
      by_cases hk : q.skipN > 0 <;>
        cases hl : q.limitN <;>
          simp [hs, hk, hl, List.append_assoc]
  · intro q h
    simp [buildMatchWhere, h]
  · intro label
    simp [buildCypher, buildMatchWhere, limitOp, sortOp, initQuery, joinSep,
      intToChars, natToChars, natToCharsAux, decDigitChar, List.append_assoc]

/-- Witness for C4: the clause decomposition and the WHERE-absence at the
concrete builder state of the claim, with a concrete label. -/
theorem build_cypher_clause_order_witness :
    buildCypher (limitOp (sortOp (initQuery (("Person").toList)) (("n.age").toList)) 2 1) =
      ("MATCH (n:Person)\nRETURN n\nORDER BY n.age\nSKIP 1\nLIMIT 2").toList
    ∧ buildMatchWhere (initQuery (("Person").toList)) =
      ("MATCH (n:Person)").toList := by
  constructor
  · have h := build_cypher_clause_order.2.2 (("Person").toList)
    rw [h]
    decide
  · have h := build_cypher_clause_order.2.1 (initQuery (("Person").toList)) rfl
    rw [h]
    decide

/-- Execution state for the trace model of `Graph._execute_cypher`: an
abstract store plus the ordered log of statements issued so far. -/
structure ExecTrace (σ : Type) where
  store : σ
  log : List (List Char)

/-- One statement execution against the abstract transport `step`: the store
advances and the statement is appended to the log. -/
def execCypher {σ : Type} (step : σ → List Char → List PyVal × σ)
    (st : ExecTrace σ) (stmt : List Char) : List PyVal × ExecTrace σ :=
  let r := step st.store stmt
  (r.1, { store := r.2, log := st.log ++ [stmt] })

/-- The count query text issued by `Query.count`:
the MATCH/WHERE prefix plus `RETURN count(n)`. -/
def countStmt (q : QueryState) : List Char :=
  buildMatchWhere q ++ '\n' :: ("RETURN count(n)").toList

/-- The deletion statement text issued by `Query.delete`:
the MATCH/WHERE prefix plus `DETACH DELETE n`. -/
def deleteStmt (q : QueryState) : List Char :=
  buildMatchWhere q ++ '\n' :: ("DETACH DELETE n").toList

/-- The scalar unwrapping of `Query.count`: `results[0]["value"]` when the
first parsed row has a `value` key, else 0 (parsed rows are always dicts). -/
def countFromResults (results : List PyVal) : PyVal :=
  match results with
  | PyVal.dict xs :: _ =>
    match lookupAssoc xs (("value").toList) with
    | some v => v
    | Option.none => PyVal.int 0
  | _ => PyVal.int 0

/-- `Query.count`: execute the count query and unwrap the scalar. -/
def queryCountRun {σ : Type} (step : σ → List Char → List PyVal × σ)
    (st : ExecTrace σ) (q : QueryState) : PyVal × ExecTrace σ :=
  let r := execCypher step st (countStmt q)
  (countFromResults r.1, r.2)

/-- `Query.delete` (builder.py lines 208-215): build the deletion statement,
run the count query first (the deletion statement reports no count), then
execute the deletion, returning the pre-deletion count. -/
def queryDeleteRun {σ : Type} (step : σ → List Char → List PyVal × σ)
    (st : ExecTrace σ) (q : QueryState) : PyVal × ExecTrace σ :=
  let r1 := queryCountRun step st q
  let r2 := execCypher step r1.2 (deleteStmt q)
  (r1.1, r2.2)

/-- C9: `delete()` issues the count query over the current filter predicate
strictly before the deletion statement, and the value it returns is exactly
the count obtained from the pre-deletion store. -/
theorem query_delete_counts_first {σ : Type}
    (step : σ → List Char → List PyVal × σ) (st : ExecTrace σ) (q : QueryState) :
    (queryDeleteRun step st q).2.log = st.log ++ [countStmt q, deleteStmt q]
    ∧ (queryDeleteRun step st q).1 = (queryCountRun step st q).1 := by
  constructor
  · simp [queryDeleteRun, queryCountRun, execCypher]
  · rfl

/-- Modelled from the spec: the helper `_unwrap_scalar` used by the Graph
Façade's column remapping is absent from src/age_orm/graph.py (only its tests
exist).  Following spec section 4.2, a record is unwrapped from the
`value`-wrapper to the bare value exactly when it has a single key named
`value`; records with additional keys, or non-records, pass through
unmodified. -/
def unwrapScalar (v : PyVal) : PyVal :=
  match v with
  | PyVal.dict [(k, x)] => if k = ("value").toList then x else v
  | _ => v

/-- Modelled from the spec: the helper `_remap_columns` used by
`Graph.cypher` with caller-supplied column names is absent from
src/age_orm/graph.py (only its tests exist).  Following spec section 4.2, a
multi-column row keyed `col_0, col_1, …` is renamed to the caller-chosen
names with each cell unwrapped by `unwrapScalar`; a single-column pure
`value`-wrapper row becomes a one-entry record under the single caller name;
anything else passes through unchanged. -/
def remapRow (names : List (List Char)) (row : PyVal) : PyVal :=
  match row with
  | PyVal.dict cells =>
    if cells.any (fun kv => (("col_").toList).isPrefixOf kv.1) then
      PyVal.dict (names.enum.filterMap (fun p =>
        (lookupAssoc cells (("col_").toList ++ natToChars p.1)).map
          (fun v => (p.2, unwrapScalar v))))
    else
      match names, cells with
      | [n], [(k, x)] =>
        if k = ("value").toList then PyVal.dict [(n, x)] else row
      | _, _ => row
  | _ => row

/-- Modelled from the spec: the row-level remapping of `_remap_columns`;
with no caller-supplied names the rows are returned untouched. -/
def remapColumns (rows : List PyVal) (names : List (List Char)) : List PyVal :=
  if names.isEmpty then rows else rows.map (remapRow names)

/-- C8: remapping renames positional `col_i` keys to the caller-chosen names
and unwraps a cell exactly when it is a single-key `value` record — cells
with additional keys (graph records) pass through unmodified; concretely,
the row col_0 = (value, w1), col_1 = (value, 5) remapped with word/count
yields word = w1, count = 5, while a graph cell keeps its label/properties
keys. -/
theorem remap_columns_spec :
    (remapColumns
        [PyVal.dict
          [((("col_0").toList), PyVal.dict [((("value").toList), PyVal.str (("w1").toList))]),
           ((("col_1").toList), PyVal.dict [((("value").toList), PyVal.int 5)])]]
        [("word").toList, ("count").toList] =
      [PyVal.dict [((("word").toList), PyVal.str (("w1").toList)),
                   ((("count").toList), PyVal.int 5)]])
    ∧ (∀ x : PyVal, unwrapScalar (PyVal.dict [((("value").toList), x)]) = x)
    ∧ (∀ (e1 e2 : List Char × PyVal) (rest : List (List Char × PyVal)),
        unwrapScalar (PyVal.dict (e1 :: e2 :: rest)) = PyVal.dict (e1 :: e2 :: rest))
    ∧ (∀ (k : List Char) (x : PyVal), k ≠ ("value").toList →
        unwrapScalar (PyVal.dict [(k, x)]) = PyVal.dict [(k, x)]) := by
  refine ⟨?_, ?_, ?_, ?_⟩
  · decide
  · intro x
    simp [unwrapScalar]
  · intro e1 e2 rest
    rfl
  · intro k x h
    simp only [unwrapScalar]
    rw [if_neg h]

/-- Witness for C8: a cell with the extra keys label and properties passes
through `unwrapScalar` unmodified. -/
theorem remap_columns_spec_witness :
    unwrapScalar
        (PyVal.dict [((("label").toList), PyVal.str (("Person").toList)),
                     ((("properties").toList), PyVal.dict [])]) =
      PyVal.dict [((("label").toList), PyVal.str (("Person").toList)),
                  ((("properties").toList), PyVal.dict [])]
    ∧ unwrapScalar
        (PyVal.dict [((("raw").toList), PyVal.int 3)]) =
      PyVal.dict [((("raw").toList), PyVal.int 3)] :=
  ⟨remap_columns_spec.2.2.1 _ _ [],
   remap_columns_spec.2.2.2 (("raw").toList) (PyVal.int 3) (by decide)⟩

/-- Closing bracket or brace, the capture class of the first stripping regex
`([\]}])::\w+` in `_parse_agtype_result`. -/
def isCloseBr (c : Char) : Bool := c = ']' || c = rbrace

/-- Whether the scan position starts a `::word` run (the `::\w+` part of the
bracket-suffix regex). -/
def brTagAt : List Char → Bool
  | c1 :: c2 :: w :: _ => c1 = ':' && c2 = ':' && isWordChar w
  | _ => false

/-- No position of the text matches the bracket-suffix pattern
`([\]}])::\w+` (so the first stripping pass leaves it unchanged). -/
def noBrTagIn : List Char → Bool
  | [] => true
  | c :: rest => !(isCloseBr c && brTagAt rest) && noBrTagIn rest

/-- Consume the `::` and the maximal word run after a matched bracket. -/
def dropBrTag (rest : List Char) : List Char :=
  (rest.drop 2).dropWhile isWordChar

/-- The global substitution `re.sub(r'([\]}])::\w+', r'\1', -)`: scan left to
right; a closing bracket followed by `::` and a word run keeps the bracket
and drops the suffix, scanning resuming after the match.  The fuel argument
only forces termination; call sites pass the text length, an upper bound on
the scan steps. -/
def stripBrF : Nat → List Char → List Char
  | 0, s => s
  | _+1, [] => []
  | fuel+1, c :: rest =>
    if isCloseBr c && brTagAt rest then c :: stripBrF fuel (dropBrTag rest)
    else c :: stripBrF fuel rest

/-- The bracket-suffix stripping pass of `_parse_agtype_result`. -/
def stripBracketTags (s : List Char) : List Char := stripBrF s.length s

/-- Whether the scan position continues with `:` and then a non-empty
all-word run to the end of the text (the remainder of `::\w+$`). -/
def scTagAt : List Char → Bool
  | c :: t => c = ':' && (!t.isEmpty && t.all isWordChar)
  | [] => false

/-- The substitution `re.sub(r'::\w+$', '', -)`: the leftmost position where
`::` is followed by a non-empty word run ending the text has everything from
it removed. -/
def stripScalarTag : List Char → List Char
  | [] => []
  | c :: rest => if c = ':' && scTagAt rest then [] else c :: stripScalarTag rest

/-- Hexadecimal digit value, accepting both cases (JSON `\uXXXX`). -/
def hexVal (c : Char) : Option Nat :=
  if '0' ≤ c && c ≤ '9' then some (c.toNat - 48)
  else if 'a' ≤ c && c ≤ 'f' then some (c.toNat - 87)
  else if 'A' ≤ c && c ≤ 'F' then some (c.toNat - 55)
  else Option.none

/-- JSON short escapes (used by `json.loads`; `\u` is handled separately). -/
def escCharOf (e : Char) : Option Char :=
  if e = '"' then some '"'
  else if e = '\\' then some '\\'
  else if e = '/' then some '/'
  else if e = 'b' then some '\x08'
  else if e = 'f' then some '\x0c'
  else if e = 'n' then some '\n'
  else if e = 'r' then some '\r'
  else if e = 't' then some '\t'
  else Option.none

/-- JSON whitespace accepted between tokens by `json.loads`. -/
def isJsonWs (c : Char) : Bool := c = ' ' || c = '\t' || c = '\n' || c = '\r'

/-- The string-body scanner of `json.loads`, entered after an opening quote:
plain characters accumulate (raw control characters are rejected, as in
strict mode), escapes decode, a closing quote ends the string.  Surrogate
pairs in `\u` escapes are not modelled (the encoder never emits them). -/
def parseStrBody : List Char → Option (List Char × List Char)
  | [] => Option.none
  | c :: rest =>
    if c = '"' then some ([], rest)
    else if c = '\\' then
      match rest with
      | [] => Option.none
      | e :: rest2 =>
        if e = 'u' then
          match rest2 with
          | h1 :: h2 :: h3 :: h4 :: rest3 =>
            match hexVal h1, hexVal h2, hexVal h3, hexVal h4 with
            | some a, some b, some c2, some d =>
              (parseStrBody rest3).map
                (fun p => (Char.ofNat (4096 * a + 256 * b + 16 * c2 + d) :: p.1, p.2))
            | _, _, _, _ => Option.none
          | _ => Option.none
        else
          match escCharOf e with
          | some c2 => (parseStrBody rest2).map (fun p => (c2 :: p.1, p.2))
          | Option.none => Option.none
    else if c.toNat < 32 then Option.none
    else (parseStrBody rest).map (fun p => (c :: p.1, p.2))

/-- Decimal value of a digit run. -/
def digitsToNat (ds : List Char) : Nat :=
  ds.foldl (fun a c => 10 * a + (c.toNat - 48)) 0

/-- The number parsing of `json.loads`, restricted to integers: an optional
minus sign then a digit run; a following `.`, `e` or `E` would denote a
float literal, whose value semantics are not modelled, so it is rejected
here (no encoder output under the no-float hypothesis reaches it). -/
def parseJsonNumber (s : List Char) : Option (PyVal × List Char) :=
  let sign : Bool := match s with
    | c :: _ => c = '-'
    | [] => false
  let s1 := if sign then s.drop 1 else s
  let ds := s1.takeWhile Char.isDigit
  let rest := s1.dropWhile Char.isDigit
  if ds.isEmpty then Option.none
  else
    match rest with
    | r0 :: _ =>
      if r0 = '.' || r0 = 'e' || r0 = 'E' then Option.none
      else
        some (PyVal.int (if sign then -(digitsToNat ds : Int) else (digitsToNat ds : Int)),
          rest)
    | [] =>
      some (PyVal.int (if sign then -(digitsToNat ds : Int) else (digitsToNat ds : Int)),
        rest)

mutual

/-- The recursive value parser of `json.loads` on the JSON fragment the codec
produces: objects, arrays, strings, the three literals, and integers.  Fuel
decreases at every recursive entry; call sites pass the text length plus
one, which the fuel-bound lemmas show suffices. -/
def parseJsonValue : Nat → List Char → Option (PyVal × List Char)
  | 0, _ => Option.none
  | fuel+1, s =>
    match s.dropWhile isJsonWs with
    | [] => Option.none
    | c :: rest =>
      if c = lbrace then parseJsonObj fuel (rest.dropWhile isJsonWs) []
      else if c = '[' then parseJsonArr fuel (rest.dropWhile isJsonWs) []
      else if c = '"' then (parseStrBody rest).map (fun p => (PyVal.str p.1, p.2))
      else if (("null").toList).isPrefixOf (c :: rest) then
        some (PyVal.none, (c :: rest).drop 4)
      else if (("true").toList).isPrefixOf (c :: rest) then
        some (PyVal.bool true, (c :: rest).drop 4)
      else if (("false").toList).isPrefixOf (c :: rest) then
        some (PyVal.bool false, (c :: rest).drop 5)
      else parseJsonNumber (c :: rest)

/-- Array elements: value, then comma and further elements or the closing
bracket. -/
def parseJsonArr : Nat → List Char → List PyVal → Option (PyVal × List Char)
  | 0, _, _ => Option.none
  | fuel+1, s, acc =>
    match s with
    | [] => Option.none
    | c :: rest =>
      if c = ']' then some (PyVal.list acc.reverse, rest)
      else
        match parseJsonValue fuel (c :: rest) with
        | some (v, r) =>
          (match r.dropWhile isJsonWs with
           | ',' :: r2 => parseJsonArr fuel (r2.dropWhile isJsonWs) (v :: acc)
           | ']' :: r2 => some (PyVal.list (v :: acc).reverse, r2)
           | _ => Option.none)
        | Option.none => Option.none

/-- Object entries: quoted key, colon, value, then comma and further entries
or the closing brace; duplicate keys overwrite in place as Python dicts do. -/
def parseJsonObj : Nat → List Char → List (List Char × PyVal) →
    Option (PyVal × List Char)
  | 0, _, _ => Option.none
  | fuel+1, s, acc =>
    match s with
    | [] => Option.none
    | c :: rest =>
      if c = rbrace then some (PyVal.dict acc, rest)
      else if c = '"' then
        match parseStrBody rest with
        | some (k, r1) =>
          (match r1.dropWhile isJsonWs with
           | ':' :: r2 =>
             (match parseJsonValue fuel (r2.dropWhile isJsonWs) with
              | some (v, r3) =>
                (match r3.dropWhile isJsonWs with
                 | ',' :: r4 => parseJsonObj fuel (r4.dropWhile isJsonWs) (dictSet acc k v)
                 | c5 :: r4 =>
                   if c5 = rbrace then some (PyVal.dict (dictSet acc k v), r4)
                   else Option.none
                 | [] => Option.none)
              | Option.none => Option.none)
           | _ => Option.none)
        | Option.none => Option.none
      else Option.none

end

/-- `json.loads`: parse one value and require only whitespace to remain. -/
def jsonLoads (s : List Char) : Option PyVal :=
  match parseJsonValue (s.length + 1) s with
  | some (v, rest) => if (rest.dropWhile isJsonWs).isEmpty then some v else Option.none
  | Option.none => Option.none

/-- The graph-record normalisation of `_parse_agtype_result` on one decoded
dict: when both an `id` and a `properties` key are present, `id` is popped
and its value assigned to `graph_id` (overwriting an existing `graph_id`
entry in place, else appended, as Python dict assignment does). -/
def renameGraphDict (xs : List (List Char × PyVal)) : List (List Char × PyVal) :=
  if hasKeyAssoc xs (("id").toList) && hasKeyAssoc xs (("properties").toList) then
    match lookupAssoc xs (("id").toList) with
    | some idv => dictSet (eraseAssoc xs (("id").toList)) (("graph_id").toList) idv
    | Option.none => xs
  else xs

/-- The per-item normalisation applied inside decoded arrays. -/
def renameItem : PyVal → PyVal
  | PyVal.dict xs =>
    if hasKeyAssoc xs (("id").toList) && hasKeyAssoc xs (("properties").toList) then
      PyVal.dict (renameGraphDict xs)
    else PyVal.dict xs
  | v => v

/-- The guard before the JSON attempt in `_parse_agtype_result`:
`val_str.startswith(("{", "[", '"')) or val_str in ("null", "true", "false")`. -/
def startsJsonLike (t : List Char) : Bool :=
  (match t with
   | c :: _ => c = lbrace || c = '[' || c = '"'
   | [] => false)
  || t = ("null").toList || t = ("true").toList || t = ("false").toList

/-- The JSON branch of `_parse_agtype_result`: decoded dicts are returned
directly after graph-record normalisation; decoded lists have their items
normalised and are wrapped; other decoded values are wrapped under the
`value` key. -/
def decodeJsonBranch (t : List Char) : Option PyVal :=
  match jsonLoads t with
  | some (PyVal.dict xs) => some (PyVal.dict (renameGraphDict xs))
  | some (PyVal.list xs) => some (PyVal.dict [((("value").toList), PyVal.list (xs.map renameItem))])
  | some v => some (PyVal.dict [((("value").toList), v)])
  | Option.none => Option.none

/-- Python `int(text)`: optional surrounding whitespace, an optional sign,
then a non-empty digit run (digit-group underscores are not modelled). -/
def pyIntParse (t : List Char) : Option Int :=
  let t1 := pyStrip t
  let sign : Option Bool := match t1 with
    | '-' :: _ => some true
    | '+' :: _ => some false
    | _ => Option.none
  let t2 := match sign with
    | some _ => t1.drop 1
    | Option.none => t1
  if !t2.isEmpty && t2.all Char.isDigit then
    some (if sign = some true then -(digitsToNat t2 : Int) else (digitsToNat t2 : Int))
  else Option.none

/-- The exponent part accepted by Python `float(text)`. -/
def expPartOk : List Char → Bool
  | [] => true
  | e :: r =>
    (e = 'e' || e = 'E') &&
      (let r2 := match r with
        | c :: rr => if c = '+' || c = '-' then rr else c :: rr
        | [] => []
       !r2.isEmpty && r2.all Char.isDigit)

/-- ASCII lower-casing for the inf/nan literals of Python `float(text)`. -/
def toLowerAscii (c : Char) : Char :=
  if 'A' ≤ c && c ≤ 'Z' then Char.ofNat (c.toNat + 32) else c

/-- Whether Python `float(text)` accepts the text: optional whitespace and
sign, then inf/infinity/nan (case-insensitive) or a decimal form with an
optional fraction and exponent (digit-group underscores are not modelled;
the float's numeric value is not modelled, only acceptance). -/
def isPyFloatLit (t0 : List Char) : Bool :=
  let t := pyStrip t0
  let t1 := match t with
    | c :: r => if c = '+' || c = '-' then r else c :: r
    | [] => []
  let low := t1.map toLowerAscii
  if low = ("inf").toList || low = ("infinity").toList || low = ("nan").toList then true
  else
    let ds1 := t1.takeWhile Char.isDigit
    let r1 := t1.dropWhile Char.isDigit
    match r1 with
    | '.' :: r2 =>
      let ds2 := r2.takeWhile Char.isDigit
      let r3 := r2.dropWhile Char.isDigit
      (!ds1.isEmpty || !ds2.isEmpty) && expPartOk r3
    | _ => !ds1.isEmpty && expPartOk r1

/-- The numeric fallback of `_parse_agtype_result`: try `int(-)`, then
`float(-)` (the accepted literal is carried as a `PyVal.float`), else return
the stripped text verbatim under the `raw` key. -/
def decodeNumeric (t : List Char) : PyVal :=
  match pyIntParse t with
  | some n => PyVal.dict [((("value").toList), PyVal.int n)]
  | Option.none =>
    if isPyFloatLit t then PyVal.dict [((("value").toList), PyVal.float t)]
    else PyVal.dict [((("raw").toList), PyVal.str t)]

/-- The ordered attempts of `_parse_agtype_result` after suffix stripping:
a JSON object/array/quoted-string (or literal) parse when the text looks like
one, then the integer parse, then the float parse, else the raw fallback. -/
def decodeCascade (t : List Char) : PyVal :=
  if startsJsonLike t then
    match decodeJsonBranch t with
    | some v => v
    | Option.none => decodeNumeric t
  else decodeNumeric t

/-- The string branch of `_parse_agtype_result` (graph.py lines 727-766):
strip, remove bracket-attached `::tag` suffixes, remove a trailing scalar
`::tag` suffix, strip again, then run the ordered parse attempts. -/
def decodeAgtypeCell (s : List Char) : PyVal :=
  decodeCascade (pyStrip (stripScalarTag (stripBracketTags (pyStrip s))))

/-- A word character is never a closing bracket or brace. -/
theorem word_not_closeBr (c : Char) (h : isWordChar c = true) : isCloseBr c = false := by
  unfold isCloseBr
  by_cases h1 : c = ']'
  · subst h1
    exact absurd h (by decide)
  · by_cases h2 : c = rbrace
    · subst h2
      exact absurd h (by decide)
    · simp [h1, h2]

/-- A closing bracket or brace is never a word character. -/
theorem closeBr_not_word (c : Char) (h : isCloseBr c = true) : isWordChar c = false := by
  by_cases hw : isWordChar c = true
  · rw [word_not_closeBr c hw] at h
    simp at h
  · simpa using hw

/-- A word character is never Python whitespace. -/
theorem word_not_ws (c : Char) (h : isWordChar c = true) : isPyWs c = false := by
  by_cases hw : isPyWs c = true
  · exfalso
    unfold isPyWs at hw
    simp only [Bool.or_eq_true, decide_eq_true_eq] at hw
    rcases hw with ((((h1 | h1) | h1) | h1) | h1) | h1 <;> subst h1 <;> revert h <;> decide
  · simpa using hw

/-- A colon is not a word character. -/
theorem colon_not_word : isWordChar ':' = false := by decide

/-- The bracket-suffix stripping scanner returns the empty text unchanged. -/
theorem stripBrF_nil (fuel : Nat) : stripBrF fuel [] = [] := by
  cases fuel <;> rfl

/-- Unfolding equation of the bracket-suffix scanner on a cons cell. -/
theorem stripBrF_cons (fuel : Nat) (c : Char) (rest : List Char) :
    stripBrF (fuel + 1) (c :: rest) =
      if isCloseBr c && brTagAt rest then c :: stripBrF fuel (dropBrTag rest)
      else c :: stripBrF fuel rest := rfl

/-- A text with no bracket-suffix pattern is unchanged by the stripping
scanner (with sufficient fuel). -/
theorem stripBrF_id : ∀ (fuel : Nat) (t : List Char), t.length ≤ fuel →
    noBrTagIn t = true → stripBrF fuel t = t := by
  intro fuel
  induction fuel with
  | zero =>
    intro t hlen _
    have : t = [] := List.eq_nil_of_length_eq_zero (Nat.le_zero.mp hlen)
    subst this
    rfl
  | succ fuel ih =>
    intro t hlen hno
    cases t with
    | nil => rfl
    | cons c rest =>
      simp only [noBrTagIn, Bool.and_eq_true, Bool.not_eq_true'] at hno
      rw [stripBrF_cons, if_neg (by rw [hno.1]; exact Bool.false_ne_true)]
      rw [ih rest (by simp only [List.length_cons] at hlen; omega) hno.2]

/-- A text none of whose characters is a closing bracket contains no
bracket-suffix pattern. -/
theorem noBrTagIn_of_no_closeBr : ∀ t : List Char,
    (∀ c ∈ t, isCloseBr c = false) → noBrTagIn t = true := by
  intro t
  induction t with
  | nil => intro _; rfl
  | cons c rest ih =>
    intro h
    simp only [noBrTagIn, Bool.and_eq_true, Bool.not_eq_true']
    constructor
    · rw [h c (by simp)]
      simp
    · exact ih (fun d hd => h d (by simp [hd]))

/-- Whether the last character of the text is a closing bracket or brace. -/
def endsCloseBr : List Char → Bool
  | [] => false
  | [c] => isCloseBr c
  | _ :: c :: rest => endsCloseBr (c :: rest)

/-- Appending `::`-prefixed text does not create a bracket-suffix match at a
position strictly inside a non-empty prefix. -/
theorem brTagAt_append (s : List Char) (h : s ≠ []) (xs : List Char) :
    brTagAt (s ++ ':' :: ':' :: xs) = brTagAt s := by
  match s with
  | [] => exact absurd rfl h
  | [d] =>
    show brTagAt (d :: ':' :: ':' :: xs) = brTagAt [d]
    simp [brTagAt, colon_not_word]
  | [d, e] =>
    show brTagAt (d :: e :: ':' :: ':' :: xs) = brTagAt [d, e]
    simp [brTagAt, colon_not_word]
  | d :: e :: f :: r =>
    rfl

/-- The bracket-suffix pass on a clean text followed by one `::tag` suffix:
when the text ends with a closing bracket the suffix is consumed with the
bracket kept, otherwise nothing matches and the input is returned. -/
theorem stripBrF_append (tag : List Char) (hw : tag.all isWordChar = true)
    (hne : tag ≠ []) : ∀ (fuel : Nat) (s : List Char),
    (s ++ ':' :: ':' :: tag).length ≤ fuel → noBrTagIn s = true →
    stripBrF fuel (s ++ ':' :: ':' :: tag) =
      if endsCloseBr s then s else s ++ ':' :: ':' :: tag := by
  have hnoX : noBrTagIn (':' :: ':' :: tag) = true := by
    apply noBrTagIn_of_no_closeBr
    intro c hc
    simp only [List.mem_cons] at hc
    rcases hc with h | h | h
    · subst h; decide
    · subst h; decide
    · exact word_not_closeBr c (by
        rw [List.all_eq_true] at hw
        exact hw c h)
  intro fuel
  induction fuel with
  | zero =>
    intro s hlen _
    exfalso
    have : (s ++ ':' :: ':' :: tag).length = 0 := Nat.le_zero.mp hlen
    simp at this
  | succ fuel ih =>
    intro s hlen hno
    cases s with
    | nil =>
      rw [List.nil_append]
      rw [show endsCloseBr ([] : List Char) = false from rfl]
      rw [if_neg (by simp)]
      exact stripBrF_id (fuel + 1) _ (by simpa using hlen) hnoX
    | cons c s1 =>
      cases s1 with
      | nil =>
        obtain ⟨w, t1, rfl⟩ : ∃ w t1, tag = w :: t1 := by
          cases tag with
          | nil => exact absurd rfl hne
          | cons w t1 => exact ⟨w, t1, rfl⟩
        have hwword : isWordChar w = true := by
          rw [List.all_eq_true] at hw
          exact hw w (by simp)
        have hbr : brTagAt (':' :: ':' :: w :: t1) = true := by
          simp [brTagAt, hwword]
        rw [show [c] ++ ':' :: ':' :: w :: t1 = c :: ':' :: ':' :: w :: t1 from rfl]
        rw [stripBrF_cons]
        rw [show endsCloseBr [c] = isCloseBr c from rfl]
        by_cases hc : isCloseBr c = true
        · rw [if_pos (by rw [hc, hbr]; rfl)]
          have hdrop : dropBrTag (':' :: ':' :: w :: t1) = [] := by
            unfold dropBrTag
            simp only [List.drop_succ_cons, List.drop_zero]
            rw [List.dropWhile_eq_nil_iff]
            intro x hx
            rw [List.all_eq_true] at hw
            exact hw x hx
          rw [hdrop, stripBrF_nil, hc, if_pos rfl]
        · have hcf : isCloseBr c = false := by
            revert hc
            cases isCloseBr c <;> simp
          rw [if_neg (by rw [hcf]; simp), hcf, if_neg (by simp)]
          rw [stripBrF_id fuel (':' :: ':' :: w :: t1)
            (by simp only [List.length_cons, List.singleton_append, List.length_append] at hlen ⊢; omega)
            hnoX]
      | cons d s2 =>
        rw [show noBrTagIn (c :: d :: s2)
            = (!(isCloseBr c && brTagAt (d :: s2)) && noBrTagIn (d :: s2)) from rfl,
          Bool.and_eq_true, Bool.not_eq_true'] at hno
        rw [show (c :: d :: s2) ++ ':' :: ':' :: tag
            = c :: ((d :: s2) ++ ':' :: ':' :: tag) from rfl]
        rw [stripBrF_cons]
        have hb : brTagAt ((d :: s2) ++ ':' :: ':' :: tag) = brTagAt (d :: s2) :=
          brTagAt_append (d :: s2) (by simp) tag
        rw [if_neg (by rw [hb, hno.1]; simp)]
        rw [ih (d :: s2)
          (by simp only [List.length_cons, List.cons_append, List.length_append] at hlen ⊢; omega)
          hno.2]
        rw [show endsCloseBr (c :: d :: s2) = endsCloseBr (d :: s2) from rfl]
        by_cases he : endsCloseBr (d :: s2) = true
        · rw [if_pos he, if_pos he]
        · have hef : endsCloseBr (d :: s2) = false := by
            revert he
            cases endsCloseBr (d :: s2) <;> simp
          rw [hef, if_neg (by simp), if_neg (by simp)]

/-- Appending `::tag` to any text never creates a trailing scalar-suffix
match whose `::` lies strictly before the appended one. -/
theorem scTagAt_append (tag : List Char) : ∀ s : List Char,
    scTagAt (s ++ ':' :: ':' :: tag) = false := by
  intro s
  cases s with
  | nil =>
    show scTagAt (':' :: ':' :: tag) = false
    simp [scTagAt, List.all_cons, colon_not_word]
  | cons d s1 =>
    show scTagAt (d :: (s1 ++ ':' :: ':' :: tag)) = false
    simp [scTagAt, List.all_append, List.all_cons, colon_not_word]

/-- The scalar-suffix pass removes exactly the appended `::tag` suffix. -/
theorem stripScalarTag_append (tag : List Char) (hw : tag.all isWordChar = true)
    (hne : tag ≠ []) : ∀ s : List Char,
    stripScalarTag (s ++ ':' :: ':' :: tag) = s := by
  intro s
  induction s with
  | nil =>
    obtain ⟨w, t1, rfl⟩ : ∃ w t1, tag = w :: t1 := by
      cases tag with
      | nil => exact absurd rfl hne
      | cons w t1 => exact ⟨w, t1, rfl⟩
    show stripScalarTag (':' :: ':' :: w :: t1) = []
    have hsc : scTagAt (':' :: w :: t1) = true := by
      simp [scTagAt, hw]
    simp [stripScalarTag, hsc]
  | cons c s1 ih =>
    show stripScalarTag (c :: (s1 ++ ':' :: ':' :: tag)) = c :: s1
    simp only [stripScalarTag]
    rw [if_neg (by rw [scTagAt_append tag s1]; simp)]
    rw [ih]

/-- A text that ends with a closing bracket is not all word characters. -/
theorem endsCloseBr_not_allWord : ∀ t : List Char, t ≠ [] →
    endsCloseBr t = true → t.all isWordChar = false := by
  intro t
  induction t with
  | nil => intro h; exact absurd rfl h
  | cons c rest ih =>
    intro _ hend
    cases rest with
    | nil =>
      simp only [List.all_cons, List.all_nil, Bool.and_true]
      exact closeBr_not_word c hend
    | cons d r2 =>
      have hrest : endsCloseBr (d :: r2) = true := hend
      rw [show (c :: d :: r2).all isWordChar
          = (isWordChar c && (d :: r2).all isWordChar) from rfl]
      rw [ih (by simp) hrest]
      simp

/-- Unfolding equation of the scalar-suffix scanner on a cons cell. -/
theorem stripScalarTag_cons (c : Char) (rest : List Char) :
    stripScalarTag (c :: rest) =
      if c = ':' && scTagAt rest then [] else c :: stripScalarTag rest := rfl

/-- A text ending with a closing bracket has no trailing scalar `::tag`
suffix, so the scalar-suffix pass is the identity on it. -/
theorem stripScalarTag_endsCloseBr : ∀ s : List Char, endsCloseBr s = true →
    stripScalarTag s = s := by
  intro s
  induction s with
  | nil => intro h; exact absurd h (by simp [endsCloseBr])
  | cons c rest ih =>
    intro hend
    cases rest with
    | nil =>
      show stripScalarTag [c] = [c]
      simp [stripScalarTag, scTagAt]
    | cons d r2 =>
      have hrest : endsCloseBr (d :: r2) = true := hend
      rw [stripScalarTag_cons]
      rw [if_neg (by
        simp only [scTagAt, Bool.and_eq_true, decide_eq_true_eq]
        intro hcon
        obtain ⟨_, _, hne2, hall⟩ := hcon
        cases r2 with
        | nil => simp at hne2
        | cons e r3 =>
          have hr3 : endsCloseBr (e :: r3) = true := hrest
          rw [endsCloseBr_not_allWord (e :: r3) (by simp) hr3] at hall
          exact absurd hall (by simp))]
      rw [ih hrest]

/-- If `str.strip()` leaves the text unchanged, so does the leading
whitespace removal alone. -/
theorem lstrip_id_of_pyStrip_id {s : List Char} (h : pyStrip s = s) :
    s.dropWhile isPyWs = s := by
  have h2 : s.length ≤ (s.dropWhile isPyWs).length := by
    conv_lhs => rw [← h]
    unfold pyStrip
    calc ((s.dropWhile isPyWs).reverse.dropWhile isPyWs).reverse.length
        = ((s.dropWhile isPyWs).reverse.dropWhile isPyWs).length :=
          List.length_reverse _
      _ ≤ (s.dropWhile isPyWs).reverse.length :=
          (List.dropWhile_sublist _).length_le
      _ = (s.dropWhile isPyWs).length := List.length_reverse _
  exact (List.dropWhile_sublist _).eq_of_length_le h2

/-- A text unchanged by leading-whitespace removal does not start with
whitespace. -/
theorem head_not_ws_of_lstrip_id {c : Char} {l : List Char}
    (h : (c :: l).dropWhile isPyWs = c :: l) : isPyWs c = false := by
  by_cases hc : isPyWs c = true
  · exfalso
    rw [List.dropWhile_cons, if_pos hc] at h
    have hle : (l.dropWhile isPyWs).length ≤ l.length :=
      (List.dropWhile_sublist _).length_le
    rw [h] at hle
    simp at hle
  · simpa using hc

/-- Appending a `::tag` suffix (non-empty word tag) to a stripped text
leaves it stripped. -/
theorem pyStrip_append_tag (s tag : List Char) (hs : pyStrip s = s)
    (hw : tag.all isWordChar = true) (hne : tag ≠ []) :
    pyStrip (s ++ ':' :: ':' :: tag) = s ++ ':' :: ':' :: tag := by
  have hl : (s ++ ':' :: ':' :: tag).dropWhile isPyWs = s ++ ':' :: ':' :: tag := by
    cases s with
    | nil =>
      rw [List.nil_append, List.dropWhile_cons, if_neg (by decide)]
    | cons c s1 =>
      have hc := head_not_ws_of_lstrip_id (lstrip_id_of_pyStrip_id hs)
      rw [List.cons_append, List.dropWhile_cons, if_neg (by rw [hc]; simp)]
  have hr : (s ++ ':' :: ':' :: tag).reverse.dropWhile isPyWs
      = (s ++ ':' :: ':' :: tag).reverse := by
    cases htr : tag.reverse with
    | nil => exact absurd (List.reverse_eq_nil_iff.mp htr) hne
    | cons w t1 =>
      have hwmem : w ∈ tag := by
        have hmem : w ∈ tag.reverse := by rw [htr]; simp
        simpa using hmem
      have hww : isWordChar w = true := by
        rw [List.all_eq_true] at hw
        exact hw w hwmem
      have hshape : (s ++ ':' :: ':' :: tag).reverse
          = w :: (t1 ++ [':'] ++ [':'] ++ s.reverse) := by
        rw [List.reverse_append]
        rw [show (':' :: ':' :: tag).reverse = (tag.reverse ++ [':']) ++ [':'] from by simp]
        rw [htr]
        simp
      rw [hshape, List.dropWhile_cons, if_neg (by rw [word_not_ws w hww]; simp)]
  unfold pyStrip
  rw [hl, hr, List.reverse_reverse]

/-- C7: a raw cell carrying one trailing `::typetag` suffix decodes exactly
like its suffix-free body — one suffix is stripped and the ordered cascade
(JSON object/array/quoted-string parse, then integer parse, then float
parse, else the stripped text verbatim under the `raw` key) runs on the
body; the two auxiliary parts pin the int and raw outcomes of the cascade. -/
theorem decode_strips_one_suffix :
    (∀ (s tag : List Char), tag ≠ [] → tag.all isWordChar = true →
      noBrTagIn s = true → pyStrip s = s →
      decodeAgtypeCell (s ++ ':' :: ':' :: tag) = decodeCascade s)
    ∧ (∀ t : List Char, startsJsonLike t = false → pyIntParse t = Option.none →
        isPyFloatLit t = false →
        decodeCascade t = PyVal.dict [((("raw").toList), PyVal.str t)])
    ∧ (∀ (t : List Char) (n : Int), startsJsonLike t = false →
        pyIntParse t = some n →
        decodeCascade t = PyVal.dict [((("value").toList), PyVal.int n)]) := by
  refine ⟨?_, ?_, ?_⟩
  · intro s tag hne hw hno hstrip
    unfold decodeAgtypeCell
    rw [pyStrip_append_tag s tag hstrip hw hne]
    unfold stripBracketTags
    rw [stripBrF_append tag hw hne _ s (le_refl _) hno]
    by_cases hend : endsCloseBr s = true
    · rw [if_pos hend, stripScalarTag_endsCloseBr s hend, hstrip]
    · have hef : endsCloseBr s = false := by
        revert hend
        cases endsCloseBr s <;> simp
      rw [hef, if_neg (by simp)]
      rw [stripScalarTag_append tag hw hne s, hstrip]
  · intro t h1 h2 h3
    unfold decodeCascade
    rw [if_neg (by rw [h1]; simp)]
    simp [decodeNumeric, h2, h3]
  · intro t n h1 h2
    unfold decodeCascade
    rw [if_neg (by rw [h1]; simp)]
    simp [decodeNumeric, h2]

/-- Witness for C7: the cell `42::int` decodes like the bare `42`, which the
cascade turns into the value-wrapped integer 42. -/
theorem decode_strips_one_suffix_witness :
    decodeAgtypeCell (("42").toList ++ ':' :: ':' :: ("int").toList) =
      decodeCascade (("42").toList)
    ∧ decodeCascade (("hello").toList) =
      PyVal.dict [((("raw").toList), PyVal.str (("hello").toList))]
    ∧ decodeCascade (("42").toList) =
      PyVal.dict [((("value").toList), PyVal.int 42)] :=
  ⟨decode_strips_one_suffix.1 (("42").toList) (("int").toList) (by decide)
      (by decide) (by decide) (by decide),
   decode_strips_one_suffix.2.1 (("hello").toList) (by decide) (by decide) (by decide),
   decode_strips_one_suffix.2.2 (("42").toList) 42 (by decide) (by decide)⟩

/-- `str.replace` distributes over cons. -/
theorem charReplace_cons (n : Char) (r : List Char) (c : Char) (s : List Char) :
    charReplace n r (c :: s) = (if c = n then r else [c]) ++ charReplace n r s := by
  simp [charReplace]

/-- `str.replace` distributes over append. -/
theorem charReplace_append (n : Char) (r : List Char) (a b : List Char) :
    charReplace n r (a ++ b) = charReplace n r a ++ charReplace n r b := by
  simp [charReplace]

/-- The control-character pass distributes over append. -/
theorem escapeControl_append (a b : List Char) :
    escapeControl (a ++ b) = escapeControl a ++ escapeControl b := by
  simp [escapeControl]

/-- The agtype string escape processes characters independently. -/
theorem escapeAgtypeString_cons (c : Char) (s : List Char) :
    escapeAgtypeString (c :: s) = escapeAgtypeString [c] ++ escapeAgtypeString s := by
  unfold escapeAgtypeString escapeAgtypeReplaces
  rw [show (c :: s) = [c] ++ s from rfl]
  rw [charReplace_append, charReplace_append, charReplace_append, charReplace_append,
    charReplace_append, escapeControl_append]

/-- Escape of one control character below 0x20 (other than the three with
short escapes): the `\uXXXX` form. -/
theorem escape_single_control (c : Char) (h : c.toNat < 32) (hn : c ≠ '\n')
    (hr : c ≠ '\r') (ht : c ≠ '\t') :
    escapeAgtypeString [c] = '\\' :: 'u' :: hex4 c.toNat := by
  have hb : c ≠ '\\' := by
    intro he
    subst he
    exact absurd h (by decide)
  have hq : c ≠ '"' := by
    intro he
    subst he
    exact absurd h (by decide)
  simp [escapeAgtypeString, escapeAgtypeReplaces, charReplace, escapeControl,
    hb, hq, hn, hr, ht, h]

/-- Escape of one ordinary character (not backslash, not quote, not a
control character): the character itself. -/
theorem escape_single_plain (c : Char) (hb : c ≠ '\\') (hq : c ≠ '"')
    (h : ¬ c.toNat < 32) :
    escapeAgtypeString [c] = [c] := by
  have hn : c ≠ '\n' := by
    intro he
    subst he
    exact absurd (by decide) h
  have hr : c ≠ '\r' := by
    intro he
    subst he
    exact absurd (by decide) h
  have ht : c ≠ '\t' := by
    intro he
    subst he
    exact absurd (by decide) h
  simp [escapeAgtypeString, escapeAgtypeReplaces, charReplace, escapeControl,
    hb, hq, hn, hr, ht, h]

/-- A hex digit printed by the encoder reads back as its value. -/
theorem hexVal_hexDigitChar : ∀ k, k < 16 → hexVal (hexDigitChar k) = some k := by
  decide

/-- The JSON string-body scanner undoes the agtype escape: for every string
and continuation, scanning the escaped text followed by a closing quote
yields the original string and the continuation. -/
theorem parseStrBody_escape : ∀ (s rest : List Char),
    parseStrBody (escapeAgtypeString s ++ '"' :: rest) = some (s, rest) := by
  intro s
  induction s with
  | nil =>
    intro rest
    show parseStrBody ('"' :: rest) = some ([], rest)
    unfold parseStrBody
    simp
  | cons c s1 ih =>
    intro rest
    rw [escapeAgtypeString_cons, List.append_assoc]
    by_cases h1 : c = '\\'
    · subst h1
      rw [show escapeAgtypeString ['\\'] = ['\\', '\\'] from rfl]
      rw [parseStrBody.eq_def]
      simp [escCharOf, ih rest]
    · by_cases h2 : c = '"'
      · subst h2
        rw [show escapeAgtypeString ['"'] = ['\\', '"'] from rfl]
        rw [parseStrBody.eq_def]
        simp [escCharOf, ih rest]
      · by_cases h3 : c = '\n'
        · subst h3
          rw [show escapeAgtypeString ['\n'] = ['\\', 'n'] from rfl]
          rw [parseStrBody.eq_def]
          simp [escCharOf, ih rest]
        · by_cases h4 : c = '\r'
          · subst h4
            rw [show escapeAgtypeString ['\r'] = ['\\', 'r'] from rfl]
            rw [parseStrBody.eq_def]
            simp [escCharOf, ih rest]
          · by_cases h5 : c = '\t'
            · subst h5
              rw [show escapeAgtypeString ['\t'] = ['\\', 't'] from rfl]
              rw [parseStrBody.eq_def]
              simp [escCharOf, ih rest]
            · by_cases h6 : c.toNat < 32
              · rw [escape_single_control c h6 h3 h4 h5]
                have e1 := hexVal_hexDigitChar (c.toNat / 4096 % 16) (Nat.mod_lt _ (by omega))
                have e2 := hexVal_hexDigitChar (c.toNat / 256 % 16) (Nat.mod_lt _ (by omega))
                have e3 := hexVal_hexDigitChar (c.toNat / 16 % 16) (Nat.mod_lt _ (by omega))
                have e4 := hexVal_hexDigitChar (c.toNat % 16) (Nat.mod_lt _ (by omega))
                rw [show hex4 c.toNat = [hexDigitChar (c.toNat / 4096 % 16),
                  hexDigitChar (c.toNat / 256 % 16), hexDigitChar (c.toNat / 16 % 16),
                  hexDigitChar (c.toNat % 16)] from rfl]
                rw [parseStrBody.eq_def]
                simp only [List.cons_append, List.nil_append, e1, e2, e3, e4, ih rest]
                have harith : 4096 * (c.toNat / 4096 % 16) + 256 * (c.toNat / 256 % 16)
                    + 16 * (c.toNat / 16 % 16) + c.toNat % 16 = c.toNat := by omega
                simp [harith, Char.ofNat_toNat]
              · rw [escape_single_plain c h1 h2 h6]
                rw [show [c] ++ (escapeAgtypeString s1 ++ '"' :: rest)
                    = c :: (escapeAgtypeString s1 ++ '"' :: rest) from rfl]
                rw [parseStrBody.eq_def]
                simp [h1, h2, h6, ih rest]
/-- A key character the encoder may interpolate verbatim into a quoted JSON
key: not a quote, not a backslash, not a control character. -/
def plainKeyChar (c : Char) : Bool := !(c = '"' || c = '\\' || c.toNat < 32)

/-- A dict key made only of plain characters (the encoder does not escape
keys, so only such keys survive the JSON round trip). -/
def plainKey (k : List Char) : Bool := k.all plainKeyChar

/-- A plain key parses back verbatim from its quoted form. -/
theorem parseStrBody_plain : ∀ (k rest : List Char), plainKey k = true →
    parseStrBody (k ++ '"' :: rest) = some (k, rest) := by
  intro k
  induction k with
  | nil =>
    intro rest _
    show parseStrBody ('"' :: rest) = some ([], rest)
    unfold parseStrBody
    simp
  | cons c k1 ih =>
    intro rest hp
    simp only [plainKey, List.all_cons, Bool.and_eq_true, plainKeyChar,
      Bool.not_eq_true', Bool.or_eq_false_iff, decide_eq_false_iff_not] at hp
    obtain ⟨⟨⟨hq, hb⟩, hc⟩, hrest⟩ := hp
    rw [List.cons_append, parseStrBody.eq_def]
    simp [hq, hb, hc, ih rest hrest]

/-- Printed decimal digits are digit characters. -/
theorem decDigit_isDigit : ∀ n, n < 10 → (decDigitChar n).isDigit = true := by
  decide

/-- Printed decimal digits read back as their value. -/
theorem decDigit_val : ∀ n, n < 10 → (decDigitChar n).toNat - 48 = n := by
  decide

/-- A digit character is not a minus sign. -/
theorem digit_ne_dash (c : Char) (h : c.isDigit = true) : (c = '-') = False := by
  simp only [eq_iff_iff, iff_false]
  intro he
  subst he
  exact absurd h (by decide)

/-- The digit accumulator of `natToChars` only prepends to its accumulator. -/
theorem natToCharsAux_acc : ∀ (n : Nat), ∀ (fuel : Nat) (acc : List Char), n < fuel →
    natToCharsAux fuel n acc = natToChars n ++ acc := by
  intro n
  induction n using Nat.strong_induction_on with
  | _ n ih =>
    intro fuel acc hfuel
    cases fuel with
    | zero => omega
    | succ f =>
      by_cases hn : n < 10
      · show (if n < 10 then decDigitChar n :: acc
            else natToCharsAux f (n / 10) (decDigitChar (n % 10) :: acc)) = _
        rw [if_pos hn]
        rw [show natToChars n = [decDigitChar n] from by
          show (if n < 10 then decDigitChar n :: ([] : List Char)
              else natToCharsAux n (n / 10) (decDigitChar (n % 10) :: [])) = _
          rw [if_pos hn]]
        rfl
      · show (if n < 10 then decDigitChar n :: acc
            else natToCharsAux f (n / 10) (decDigitChar (n % 10) :: acc)) = _
        rw [if_neg hn]
        have hdiv : n / 10 < n := Nat.div_lt_self (by omega) (by omega)
        rw [ih (n / 10) hdiv f (decDigitChar (n % 10) :: acc) (by omega)]
        rw [show natToChars n
            = natToChars (n / 10) ++ [decDigitChar (n % 10)] from by
          show (if n < 10 then decDigitChar n :: ([] : List Char)
              else natToCharsAux n (n / 10) (decDigitChar (n % 10) :: [])) = _
          rw [if_neg hn]
          exact ih (n / 10) hdiv n ([decDigitChar (n % 10)]) (by omega)]
        simp

/-- Unfolding of `natToChars` below ten. -/
theorem natToChars_small (n : Nat) (h : n < 10) :
    natToChars n = [decDigitChar n] := by
  show (if n < 10 then decDigitChar n :: ([] : List Char)
      else natToCharsAux n (n / 10) (decDigitChar (n % 10) :: [])) = _
  rw [if_pos h]

/-- Unfolding of `natToChars` at ten and above. -/
theorem natToChars_step (n : Nat) (h : 10 ≤ n) :
    natToChars n = natToChars (n / 10) ++ [decDigitChar (n % 10)] := by
  show (if n < 10 then decDigitChar n :: ([] : List Char)
      else natToCharsAux n (n / 10) (decDigitChar (n % 10) :: [])) = _
  rw [if_neg (by omega)]
  exact natToCharsAux_acc (n / 10) n ([decDigitChar (n % 10)])
    (Nat.lt_of_lt_of_le (Nat.div_lt_self (by omega) (by omega)) (by omega))

/-- The decimal rendering consists of digit characters. -/
theorem natToChars_all_digits : ∀ n : Nat, (natToChars n).all Char.isDigit = true := by
  intro n
  induction n using Nat.strong_induction_on with
  | _ n ih =>
    by_cases hn : n < 10
    · rw [natToChars_small n hn]
      simp [decDigit_isDigit n hn]
    · rw [natToChars_step n (by omega)]
      rw [List.all_append]
      rw [ih (n / 10) (Nat.div_lt_self (by omega) (by omega))]
      simp [decDigit_isDigit (n % 10) (Nat.mod_lt _ (by omega))]

/-- The decimal rendering is never empty. -/
theorem natToChars_ne_nil (n : Nat) : natToChars n ≠ [] := by
  by_cases hn : n < 10
  · rw [natToChars_small n hn]
    simp
  · rw [natToChars_step n (by omega)]
    simp

/-- Folding the digit step over a decimal rendering recovers the number,
with an arbitrary accumulator. -/
theorem natToChars_foldl : ∀ (n : Nat) (a : Nat),
    (natToChars n).foldl (fun x c => 10 * x + (c.toNat - 48)) a
      = a * 10 ^ (natToChars n).length + n := by
  intro n
  induction n using Nat.strong_induction_on with
  | _ n ih =>
    intro a
    by_cases hn : n < 10
    · rw [natToChars_small n hn]
      simp only [List.foldl_cons, List.foldl_nil, List.length_cons, List.length_nil]
      rw [decDigit_val n hn]
      simp [pow_one]
      omega
    · rw [natToChars_step n (by omega)]
      rw [List.foldl_append]
      simp only [List.foldl_cons, List.foldl_nil, List.length_append, List.length_cons,
        List.length_nil]
      rw [ih (n / 10) (Nat.div_lt_self (by omega) (by omega)) a]
      rw [decDigit_val (n % 10) (Nat.mod_lt _ (by omega))]
      rw [pow_succ]
      have hmod := Nat.div_add_mod n 10
      set k := 10 ^ (natToChars (n / 10)).length
      ring_nf
      omega

/-- The digit fold undoes the decimal rendering. -/
theorem digitsToNat_natToChars (n : Nat) : digitsToNat (natToChars n) = n := by
  unfold digitsToNat
  rw [natToChars_foldl n 0]
  simp

/-- takeWhile/dropWhile over an all-satisfying prefix followed by a failing
(or empty) continuation split at the boundary. -/
theorem takeWhile_append_all {p : Char → Bool} : ∀ (xs ys : List Char),
    xs.all p = true → ys.takeWhile p = [] →
    (xs ++ ys).takeWhile p = xs ∧ (xs ++ ys).dropWhile p = ys := by
  intro xs
  induction xs with
  | nil =>
    intro ys _ hy
    refine ⟨by simpa using hy, ?_⟩
    cases ys with
    | nil => rfl
    | cons c t =>
      rw [List.nil_append, List.dropWhile_cons]
      rw [List.takeWhile_cons] at hy
      by_cases hc : p c = true
      · rw [if_pos hc] at hy
        simp at hy
      · rw [if_neg (by simpa using hc)]
  | cons x xs ih =>
    intro ys hall hy
    rw [List.all_cons, Bool.and_eq_true] at hall
    rw [List.cons_append, List.takeWhile_cons, List.dropWhile_cons,
      if_pos hall.1, if_pos hall.1]
    have hs := ih ys hall.2 hy
    exact ⟨by rw [hs.1], hs.2⟩
set_option maxHeartbeats 1000000 in
/-- The JSON number parser on a digit run (optionally minus-signed) followed
by a continuation that begins with no digit and no float continuation
character: it returns the signed value and the continuation. -/
theorem parseJsonNumber_digits (xs rest : List Char) (hne : xs ≠ [])
    (hall : xs.all Char.isDigit = true) (h1 : rest.takeWhile Char.isDigit = [])
    (h2 : ∀ c t, rest = c :: t → ¬(c = '.' ∨ c = 'e' ∨ c = 'E')) :
    parseJsonNumber (xs ++ rest) = some (PyVal.int (digitsToNat xs : Int), rest)
    ∧ parseJsonNumber ('-' :: (xs ++ rest))
      = some (PyVal.int (-(digitsToNat xs : Int)), rest) := by
  cases xs with
  | nil => exact absurd rfl hne
  | cons c0 cs =>
    have hd : c0.isDigit = true := by
      rw [List.all_cons, Bool.and_eq_true] at hall
      exact hall.1
    have htail := takeWhile_append_all cs rest
      (by rw [List.all_cons, Bool.and_eq_true] at hall; exact hall.2) h1
    constructor
    · simp only [parseJsonNumber, List.cons_append]
      simp only [digit_ne_dash c0 hd, decide_False]
      simp only [Bool.false_eq_true, if_false]
      rw [List.takeWhile_cons, if_pos hd, htail.1,
        List.dropWhile_cons, if_pos hd, htail.2]
      simp only [List.isEmpty_cons, Bool.false_eq_true, if_false]
      cases rest with
      | nil => rfl
      | cons r0 t =>
        have hr := h2 r0 t rfl
        push_neg at hr
        simp [hr.1, hr.2.1, hr.2.2]
    · simp only [parseJsonNumber, List.cons_append]
      simp only [decide_True, if_true, List.drop_succ_cons, List.drop_zero]
      rw [List.takeWhile_cons, if_pos hd, htail.1,
        List.dropWhile_cons, if_pos hd, htail.2]
      simp only [List.isEmpty_cons, Bool.false_eq_true, if_false]
      cases rest with
      | nil => rfl
      | cons r0 t =>
        have hr := h2 r0 t rfl
        push_neg at hr
        simp [hr.1, hr.2.1, hr.2.2]


/-- The JSON number parser undoes the integer rendering. -/
theorem parseJsonNumber_intToChars (n : Int) (rest : List Char)
    (h1 : rest.takeWhile Char.isDigit = [])
    (h2 : ∀ c t, rest = c :: t → ¬(c = '.' ∨ c = 'e' ∨ c = 'E')) :
    parseJsonNumber (intToChars n ++ rest) = some (PyVal.int n, rest) := by
  cases n with
  | ofNat m =>
    have hp := (parseJsonNumber_digits (natToChars m) rest (natToChars_ne_nil m)
      (natToChars_all_digits m) h1 h2).1
    rw [show intToChars (Int.ofNat m) = natToChars m from rfl, hp,
      digitsToNat_natToChars]
    rfl
  | negSucc m =>
    have hp := (parseJsonNumber_digits (natToChars (m + 1)) rest
      (natToChars_ne_nil (m + 1)) (natToChars_all_digits (m + 1)) h1 h2).2
    rw [show intToChars (Int.negSucc m) ++ rest
        = '-' :: (natToChars (m + 1) ++ rest) from rfl, hp,
      digitsToNat_natToChars]
    congr 2

mutual

/-- Values for which the round-trip argument applies: no floats (their
formatting is not modelled), and every dict has distinct plain keys. -/
def goodVal : PyVal → Bool
  | PyVal.none => true
  | PyVal.bool _ => true
  | PyVal.int _ => true
  | PyVal.float _ => false
  | PyVal.str _ => true
  | PyVal.list xs => goodList xs
  | PyVal.dict xs => goodDict xs

/-- All list elements good. -/
def goodList : List PyVal → Bool
  | [] => true
  | v :: rest => goodVal v && goodList rest

/-- All dict entries good, keys plain and mutually distinct. -/
def goodDict : List (List Char × PyVal) → Bool
  | [] => true
  | (k, v) :: rest =>
    plainKey k && !hasKeyAssoc rest k && goodVal v && goodDict rest

end

mutual

/-- Fuel sufficient for `parseJsonValue` on the encoding of a value. -/
def pvFuel : PyVal → Nat
  | PyVal.list xs => pvFuelL xs + 1
  | PyVal.dict xs => pvFuelD xs + 1
  | _ => 1

/-- Fuel sufficient for `parseJsonArr` on an encoded element list. -/
def pvFuelL : List PyVal → Nat
  | [] => 1
  | v :: rest => Nat.max (pvFuel v) (pvFuelL rest) + 1

/-- Fuel sufficient for `parseJsonObj` on an encoded entry list. -/
def pvFuelD : List (List Char × PyVal) → Nat
  | [] => 1
  | (_, v) :: rest => Nat.max (pvFuel v) (pvFuelD rest) + 1

end
/-- Two characters with distinct code points are unequal, as a `False`
equation for rewriting. -/
theorem char_eq_false_of_toNat {a b : Char} (h : a.toNat ≠ b.toNat) :
    (a = b) = False := by
  simp only [eq_iff_iff, iff_false]
  intro he
  exact h (congrArg Char.toNat he)

/-- Digit characters are not JSON whitespace, bracket, brace, quote or any
literal head. -/
theorem digit_char_facts (c : Char) (h : c.isDigit = true) :
    isJsonWs c = false ∧ (c = lbrace) = False ∧ (c = '[') = False
    ∧ (c = '"') = False ∧ (c = ']') = False ∧ (c = 'n') = False
    ∧ (c = 't') = False ∧ (c = 'f') = False := by
  refine ⟨?_, ?_, ?_, ?_, ?_, ?_, ?_, ?_⟩
  · by_cases hw : isJsonWs c = true
    · exfalso
      unfold isJsonWs at hw
      simp only [Bool.or_eq_true, decide_eq_true_eq] at hw
      rcases hw with ((h1 | h1) | h1) | h1 <;> subst h1 <;> exact absurd h (by decide)
    · simpa using hw
  all_goals
    simp only [eq_iff_iff, iff_false]
    intro he
    subst he
    exact absurd h (by decide)

/-- The minus sign is not JSON whitespace, bracket, brace, quote or any
literal head. -/
theorem dash_char_facts :
    isJsonWs '-' = false ∧ (('-' : Char) = lbrace) = False
    ∧ (('-' : Char) = '[') = False ∧ (('-' : Char) = '"') = False
    ∧ (('-' : Char) = ']') = False ∧ (('-' : Char) = 'n') = False
    ∧ (('-' : Char) = 't') = False ∧ (('-' : Char) = 'f') = False :=
  ⟨by decide, char_eq_false_of_toNat (by decide), char_eq_false_of_toNat (by decide),
   char_eq_false_of_toNat (by decide), char_eq_false_of_toNat (by decide),
   char_eq_false_of_toNat (by decide), char_eq_false_of_toNat (by decide),
   char_eq_false_of_toNat (by decide)⟩

/-- A word prefix with a known distinct head never matches. -/
theorem isPrefixOf_false_of_head {a c : Char} {as t : List Char} (h : (c = a) = False) :
    (a :: as).isPrefixOf (c :: t) = false := by
  show (a == c && as.isPrefixOf t) = false
  rw [show (a == c) = false from beq_eq_false_iff_ne.mpr (by
    intro he
    rw [eq_iff_iff, iff_false] at h
    exact h he.symm)]
  rfl

/-- One-step unfolding of the JSON value parser at positive fuel. -/
theorem parseJsonValue_succ (fuel : Nat) (s : List Char) :
    parseJsonValue (fuel + 1) s =
      match s.dropWhile isJsonWs with
      | [] => Option.none
      | c :: rest =>
        if c = lbrace then parseJsonObj fuel (rest.dropWhile isJsonWs) []
        else if c = '[' then parseJsonArr fuel (rest.dropWhile isJsonWs) []
        else if c = '"' then (parseStrBody rest).map (fun p => (PyVal.str p.1, p.2))
        else if (("null").toList).isPrefixOf (c :: rest) then
          some (PyVal.none, (c :: rest).drop 4)
        else if (("true").toList).isPrefixOf (c :: rest) then
          some (PyVal.bool true, (c :: rest).drop 4)
        else if (("false").toList).isPrefixOf (c :: rest) then
          some (PyVal.bool false, (c :: rest).drop 5)
        else parseJsonNumber (c :: rest) := rfl

/-- One-step unfolding of the JSON array parser at positive fuel. -/
theorem parseJsonArr_succ (fuel : Nat) (s : List Char) (acc : List PyVal) :
    parseJsonArr (fuel + 1) s acc =
      match s with
      | [] => Option.none
      | c :: rest =>
        if c = ']' then some (PyVal.list acc.reverse, rest)
        else
          match parseJsonValue fuel (c :: rest) with
          | some (v, r) =>
            (match r.dropWhile isJsonWs with
             | ',' :: r2 => parseJsonArr fuel (r2.dropWhile isJsonWs) (v :: acc)
             | ']' :: r2 => some (PyVal.list (v :: acc).reverse, r2)
             | _ => Option.none)
          | Option.none => Option.none := rfl

/-- One-step unfolding of the JSON object parser at positive fuel. -/
theorem parseJsonObj_succ (fuel : Nat) (s : List Char)
    (acc : List (List Char × PyVal)) :
    parseJsonObj (fuel + 1) s acc =
      match s with
      | [] => Option.none
      | c :: rest =>
        if c = rbrace then some (PyVal.dict acc, rest)
        else if c = '"' then
          match parseStrBody rest with
          | some (k, r1) =>
            (match r1.dropWhile isJsonWs with
             | ':' :: r2 =>
               (match parseJsonValue fuel (r2.dropWhile isJsonWs) with
                | some (v, r3) =>
                  (match r3.dropWhile isJsonWs with
                   | ',' :: r4 => parseJsonObj fuel (r4.dropWhile isJsonWs) (dictSet acc k v)
                   | c5 :: r4 =>
                     if c5 = rbrace then some (PyVal.dict (dictSet acc k v), r4)
                     else Option.none
                   | [] => Option.none)
                | Option.none => Option.none)
             | _ => Option.none)
          | Option.none => Option.none
        else Option.none := rfl

/-- Dispatch of the JSON value parser on a number head: all structured and
literal branches fail and the number parser runs. -/
theorem parseJsonValue_num_dispatch (fuel : Nat) (c : Char) (t : List Char)
    (h : c.isDigit = true ∨ c = '-') :
    parseJsonValue (fuel + 1) (c :: t) = parseJsonNumber (c :: t) := by
  have hf : isJsonWs c = false ∧ (c = lbrace) = False ∧ (c = '[') = False
      ∧ (c = '"') = False ∧ (c = ']') = False ∧ (c = 'n') = False
      ∧ (c = 't') = False ∧ (c = 'f') = False := by
    rcases h with h | h
    · exact digit_char_facts c h
    · subst h
      exact dash_char_facts
  obtain ⟨hws, hlb, hsq, hq, _, hn, ht, hfa⟩ := hf
  rw [parseJsonValue_succ]
  rw [show (c :: t).dropWhile isJsonWs = c :: t from by
    rw [List.dropWhile_cons, if_neg (by rw [hws]; simp)]]
  simp only []
  rw [show (("null").toList).isPrefixOf (c :: t) = false from
    isPrefixOf_false_of_head hn]
  rw [show (("true").toList).isPrefixOf (c :: t) = false from
    isPrefixOf_false_of_head ht]
  rw [show (("false").toList).isPrefixOf (c :: t) = false from
    isPrefixOf_false_of_head hfa]
  simp [hlb, hsq, hq]

/-- The head of the encoding of a good value: it exists, is not whitespace,
not a closing bracket and not a closing brace. -/
theorem encHead_shape : ∀ v : PyVal, goodVal v = true →
    ∃ c t, toAgtypeValue v = c :: t ∧ isJsonWs c = false ∧ (c = ']') = False
      ∧ (c = rbrace) = False ∧ (c = ',') = False := by
  intro v hg
  cases v with
  | none =>
    exact ⟨'n', _, rfl, by decide, char_eq_false_of_toNat (by decide),
      char_eq_false_of_toNat (by decide), char_eq_false_of_toNat (by decide)⟩
  | bool b =>
    cases b with
    | true =>
      exact ⟨'t', _, rfl, by decide, char_eq_false_of_toNat (by decide),
        char_eq_false_of_toNat (by decide), char_eq_false_of_toNat (by decide)⟩
    | false =>
      exact ⟨'f', _, rfl, by decide, char_eq_false_of_toNat (by decide),
        char_eq_false_of_toNat (by decide), char_eq_false_of_toNat (by decide)⟩
  | float lit => exact absurd hg (by simp [goodVal])
  | str s =>
    exact ⟨'"', _, rfl, by decide, char_eq_false_of_toNat (by decide),
      char_eq_false_of_toNat (by decide), char_eq_false_of_toNat (by decide)⟩
  | list xs =>
    exact ⟨'[', _, rfl, by decide, char_eq_false_of_toNat (by decide),
      char_eq_false_of_toNat (by decide), char_eq_false_of_toNat (by decide)⟩
  | dict xs =>
    exact ⟨lbrace, _, rfl, by decide, char_eq_false_of_toNat (by decide),
      char_eq_false_of_toNat (by decide), char_eq_false_of_toNat (by decide)⟩
  | int n =>
    cases n with
    | ofNat m =>
      obtain ⟨c0, cs, hm⟩ : ∃ c0 cs, natToChars m = c0 :: cs := by
        cases hx : natToChars m with
        | nil => exact absurd hx (natToChars_ne_nil m)
        | cons c0 cs => exact ⟨c0, cs, rfl⟩
      have hd : c0.isDigit = true := by
        have hall := natToChars_all_digits m
        rw [hm, List.all_cons, Bool.and_eq_true] at hall
        exact hall.1
      obtain ⟨hws, _, _, _, hbr, _, _, _⟩ := digit_char_facts c0 hd
      refine ⟨c0, cs, ?_, hws, hbr, ?_, ?_⟩
      · rw [show toAgtypeValue (PyVal.int (Int.ofNat m)) = natToChars m from rfl, hm]
      · simp only [eq_iff_iff, iff_false]
        intro he
        subst he
        exact absurd hd (by decide)
      · simp only [eq_iff_iff, iff_false]
        intro he
        subst he
        exact absurd hd (by decide)
    | negSucc m =>
      exact ⟨'-', _, rfl, by decide, char_eq_false_of_toNat (by decide),
        char_eq_false_of_toNat (by decide), char_eq_false_of_toNat (by decide)⟩

/-- Freshly keyed Python-dict assignment appends at the end. -/
theorem dictSet_fresh {acc : List (List Char × PyVal)} {k : List Char} {v : PyVal}
    (h : hasKeyAssoc acc k = false) : dictSet acc k v = acc ++ [(k, v)] := by
  induction acc with
  | nil => rfl
  | cons p tl ih =>
    obtain ⟨k1, v1⟩ := p
    have h1 : ((if k1 = k then some v1 else lookupAssoc tl k).isSome) = false := h
    by_cases hk : k1 = k
    · rw [if_pos hk] at h1
      simp at h1
    · rw [if_neg hk] at h1
      show (if k1 = k then (k1, v) :: tl else (k1, v1) :: dictSet tl k v) = _
      rw [if_neg hk, ih h1]
      rfl

/-- Key presence distributes over append. -/
theorem hasKeyAssoc_append (a b : List (List Char × PyVal)) (k : List Char) :
    hasKeyAssoc (a ++ b) k = (hasKeyAssoc a k || hasKeyAssoc b k) := by
  induction a with
  | nil => rfl
  | cons p tl ih =>
    obtain ⟨k1, v1⟩ := p
    show ((if k1 = k then some v1 else lookupAssoc (tl ++ b) k).isSome)
      = (((if k1 = k then some v1 else lookupAssoc tl k).isSome) || hasKeyAssoc b k)
    by_cases hk : k1 = k
    · rw [if_pos hk, if_pos hk]
      rfl
    · rw [if_neg hk, if_neg hk]
      exact ih

/-- A member entry provides its key. -/
theorem hasKeyAssoc_of_mem {xs : List (List Char × PyVal)} {p : List Char × PyVal}
    (h : p ∈ xs) : hasKeyAssoc xs p.1 = true := by
  induction xs with
  | nil => simp at h
  | cons q tl ih =>
    obtain ⟨k1, v1⟩ := q
    show ((if k1 = p.1 then some v1 else lookupAssoc tl p.1).isSome) = true
    by_cases hk : k1 = p.1
    · rw [if_pos hk]
      rfl
    · rw [if_neg hk]
      rcases List.mem_cons.mp h with hq | hq
      · exact absurd (congrArg Prod.fst hq.symm) hk
      · exact ih hq

/-- A list is a Boolean prefix of itself followed by anything. -/
theorem isPrefixOf_append_chars (as bs : List Char) : as.isPrefixOf (as ++ bs) = true := by
  induction as with
  | nil => simp [List.isPrefixOf]
  | cons a t ih =>
    show (a == a && t.isPrefixOf (t ++ bs)) = true
    rw [ih, beq_self_eq_true]
    rfl

/-- Opening bracket dispatch of the JSON value parser. -/
theorem parseJsonValue_openBracket (fuel : Nat) (X : List Char) :
    parseJsonValue (fuel + 1) ('[' :: X) = parseJsonArr fuel (X.dropWhile isJsonWs) [] := by
  rw [parseJsonValue_succ]
  rw [show ('[' :: X).dropWhile isJsonWs = '[' :: X from by
    rw [List.dropWhile_cons, if_neg (by decide)]]
  simp only []
  rw [if_neg (by intro he; exact absurd (congrArg Char.toNat he) (by decide)),
    if_pos True.intro]

/-- Opening brace dispatch of the JSON value parser. -/
theorem parseJsonValue_openBrace (fuel : Nat) (X : List Char) :
    parseJsonValue (fuel + 1) (lbrace :: X) = parseJsonObj fuel (X.dropWhile isJsonWs) [] := by
  rw [parseJsonValue_succ]
  rw [show (lbrace :: X).dropWhile isJsonWs = lbrace :: X from by
    rw [List.dropWhile_cons, if_neg (by decide)]]
  simp only []
  rw [if_pos True.intro]

/-- Quote dispatch of the JSON value parser: an escaped string body parses
back to the string. -/
theorem parseJsonValue_quote (fuel : Nat) (s rest : List Char) :
    parseJsonValue (fuel + 1) (toAgtypeValue (PyVal.str s) ++ rest)
      = some (PyVal.str s, rest) := by
  rw [show toAgtypeValue (PyVal.str s) ++ rest
      = '"' :: (escapeAgtypeString s ++ '"' :: rest) from by
    show ('"' :: (escapeAgtypeString s ++ ['"'])) ++ rest = _
    simp]
  rw [parseJsonValue_succ]
  rw [show ('"' :: (escapeAgtypeString s ++ '"' :: rest)).dropWhile isJsonWs
      = '"' :: (escapeAgtypeString s ++ '"' :: rest) from by
    rw [List.dropWhile_cons, if_neg (by decide)]]
  simp only []
  rw [if_neg (by intro he; exact absurd (congrArg Char.toNat he) (by decide)),
    if_neg (by intro he; exact absurd (congrArg Char.toNat he) (by decide)),
    if_pos True.intro]
  rw [parseStrBody_escape s rest]
  rfl

/-- Literal dispatches of the JSON value parser. -/
theorem parseJsonValue_literals (fuel : Nat) (rest : List Char) :
    parseJsonValue (fuel + 1) (("null").toList ++ rest) = some (PyVal.none, rest)
    ∧ parseJsonValue (fuel + 1) (("true").toList ++ rest) = some (PyVal.bool true, rest)
    ∧ parseJsonValue (fuel + 1) (("false").toList ++ rest)
      = some (PyVal.bool false, rest) := by
  refine ⟨?_, ?_, ?_⟩
  · rw [show ("null").toList ++ rest = 'n' :: 'u' :: 'l' :: 'l' :: rest from rfl]
    rw [parseJsonValue_succ]
    rw [show ('n' :: 'u' :: 'l' :: 'l' :: rest).dropWhile isJsonWs
        = 'n' :: 'u' :: 'l' :: 'l' :: rest from by
      rw [List.dropWhile_cons, if_neg (by decide)]]
    simp only []
    rw [if_neg (by intro he; exact absurd (congrArg Char.toNat he) (by decide)),
      if_neg (by intro he; exact absurd (congrArg Char.toNat he) (by decide)),
      if_neg (by intro he; exact absurd (congrArg Char.toNat he) (by decide)),
      if_pos (by
        rw [show 'n' :: 'u' :: 'l' :: 'l' :: rest = ("null").toList ++ rest from rfl]
        exact isPrefixOf_append_chars _ _)]
    simp
  · rw [show ("true").toList ++ rest = 't' :: 'r' :: 'u' :: 'e' :: rest from rfl]
    rw [parseJsonValue_succ]
    rw [show ('t' :: 'r' :: 'u' :: 'e' :: rest).dropWhile isJsonWs
        = 't' :: 'r' :: 'u' :: 'e' :: rest from by
      rw [List.dropWhile_cons, if_neg (by decide)]]
    simp only []
    rw [if_neg (by intro he; exact absurd (congrArg Char.toNat he) (by decide)),
      if_neg (by intro he; exact absurd (congrArg Char.toNat he) (by decide)),
      if_neg (by intro he; exact absurd (congrArg Char.toNat he) (by decide)),
      if_neg (by rw [show (("null").toList).isPrefixOf ('t' :: 'r' :: 'u' :: 'e' :: rest)
        = false from isPrefixOf_false_of_head (char_eq_false_of_toNat (by decide))]; simp),
      if_pos (by
        rw [show 't' :: 'r' :: 'u' :: 'e' :: rest = ("true").toList ++ rest from rfl]
        exact isPrefixOf_append_chars _ _)]
    simp
  · rw [show ("false").toList ++ rest = 'f' :: 'a' :: 'l' :: 's' :: 'e' :: rest from rfl]
    rw [parseJsonValue_succ]
    rw [show ('f' :: 'a' :: 'l' :: 's' :: 'e' :: rest).dropWhile isJsonWs
        = 'f' :: 'a' :: 'l' :: 's' :: 'e' :: rest from by
      rw [List.dropWhile_cons, if_neg (by decide)]]
    simp only []
    rw [if_neg (by intro he; exact absurd (congrArg Char.toNat he) (by decide)),
      if_neg (by intro he; exact absurd (congrArg Char.toNat he) (by decide)),
      if_neg (by intro he; exact absurd (congrArg Char.toNat he) (by decide)),
      if_neg (by rw [show (("null").toList).isPrefixOf ('f' :: 'a' :: 'l' :: 's' :: 'e' :: rest)
        = false from isPrefixOf_false_of_head (char_eq_false_of_toNat (by decide))]; simp),
      if_neg (by rw [show (("true").toList).isPrefixOf ('f' :: 'a' :: 'l' :: 's' :: 'e' :: rest)
        = false from isPrefixOf_false_of_head (char_eq_false_of_toNat (by decide))]; simp),
      if_pos (by
        rw [show 'f' :: 'a' :: 'l' :: 's' :: 'e' :: rest = ("false").toList ++ rest from rfl]
        exact isPrefixOf_append_chars _ _)]
    simp
  
/-- Skipping whitespace is the identity on an encoded element list followed
by a non-whitespace character. -/
theorem encList_append_skipWs (xs : List PyVal) (c : Char) (r : List Char)
    (hg : goodList xs = true) (hc : isJsonWs c = false) :
    (toAgtypeList xs ++ c :: r).dropWhile isJsonWs = toAgtypeList xs ++ c :: r := by
  cases xs with
  | nil =>
    show (c :: r).dropWhile isJsonWs = c :: r
    rw [List.dropWhile_cons, if_neg (by rw [hc]; simp)]
  | cons v t =>
    have hgv : goodVal v = true := by
      rw [show goodList (v :: t) = (goodVal v && goodList t) from rfl,
        Bool.and_eq_true] at hg
      exact hg.1
    obtain ⟨c0, t0, he, hw, _, _, _⟩ := encHead_shape v hgv
    cases t with
    | nil =>
      rw [show toAgtypeList [v] = toAgtypeValue v from rfl, he]
      simp only [List.cons_append]
      rw [List.dropWhile_cons, if_neg (by rw [hw]; simp)]
    | cons w t2 =>
      rw [show toAgtypeList (v :: w :: t2)
          = toAgtypeValue v ++ ',' :: ' ' :: toAgtypeList (w :: t2) from rfl, he]
      simp only [List.cons_append, List.append_assoc]
      rw [List.dropWhile_cons, if_neg (by rw [hw]; simp)]

/-- Skipping whitespace is the identity on an encoded entry list followed by
a non-whitespace character (entries always start with a quote). -/
theorem encDict_append_skipWs (xs : List (List Char × PyVal)) (c : Char)
    (r : List Char) (hc : isJsonWs c = false) :
    (toAgtypeDict xs ++ c :: r).dropWhile isJsonWs = toAgtypeDict xs ++ c :: r := by
  cases xs with
  | nil =>
    show (c :: r).dropWhile isJsonWs = c :: r
    rw [List.dropWhile_cons, if_neg (by rw [hc]; simp)]
  | cons p t =>
    obtain ⟨k, v⟩ := p
    cases t with
    | nil =>
      rw [show toAgtypeDict [(k, v)] = '"' :: k ++ '"' :: ':' :: ' ' :: toAgtypeValue v
        from rfl]
      simp only [List.cons_append, List.append_assoc]
      rw [List.dropWhile_cons, if_neg (by decide)]
    | cons q t2 =>
      rw [show toAgtypeDict ((k, v) :: q :: t2)
          = ('"' :: k ++ '"' :: ':' :: ' ' :: toAgtypeValue v) ++ ',' :: ' '
            :: toAgtypeDict (q :: t2) from rfl]
      simp only [List.cons_append, List.append_assoc]
      rw [List.dropWhile_cons, if_neg (by decide)]

/-- Skipping whitespace is the identity on an encoded value followed by a
non-whitespace character. -/
theorem encVal_append_skipWs (v : PyVal) (c : Char) (r : List Char)
    (hg : goodVal v = true) (hc : isJsonWs c = false) :
    (toAgtypeValue v ++ c :: r).dropWhile isJsonWs = toAgtypeValue v ++ c :: r := by
  obtain ⟨c0, t0, he, hw, _, _, _⟩ := encHead_shape v hg
  rw [he]
  simp only [List.cons_append]
  rw [List.dropWhile_cons, if_neg (by rw [hw]; simp)]

/-- A continuation headed by a non-digit, non-float-continuation character
satisfies both side conditions of the number parser lemmas. -/
theorem guard_head (c : Char) (r : List Char) (hd : c.isDigit = false)
    (h1 : (c = '.') = False) (h2 : (c = 'e') = False) (h3 : (c = 'E') = False) :
    (c :: r).takeWhile Char.isDigit = []
    ∧ (∀ c0 t0, c :: r = c0 :: t0 → ¬(c0 = '.' ∨ c0 = 'e' ∨ c0 = 'E')) := by
  constructor
  · rw [List.takeWhile_cons, if_neg (by rw [hd]; simp)]
  · intro c0 t0 hct hor
    injection hct with ha hb
    subst ha
    rcases hor with h | h | h
    · rw [h1] at h
      exact h
    · rw [h2] at h
      exact h
    · rw [h3] at h
      exact h

mutual

/-- The JSON fragment parser undoes `to_agtype_value` on good values, for
any continuation that cannot extend a trailing number. -/
theorem parse_enc : ∀ (v : PyVal) (fuel : Nat) (rest : List Char),
    goodVal v = true → pvFuel v ≤ fuel →
    rest.takeWhile Char.isDigit = [] →
    (∀ c t, rest = c :: t → ¬(c = '.' ∨ c = 'e' ∨ c = 'E')) →
    parseJsonValue fuel (toAgtypeValue v ++ rest) = some (v, rest)
  | PyVal.none, fuel, rest => by
    intro _ hf _ _
    cases fuel with
    | zero =>
      have h1 : (1 : Nat) ≤ 0 := hf
      omega
    | succ f =>
      show parseJsonValue (f + 1) (("null").toList ++ rest) = some (PyVal.none, rest)
      exact (parseJsonValue_literals f rest).1
  | PyVal.bool b, fuel, rest => by
    intro _ hf _ _
    cases fuel with
    | zero =>
      have h1 : (1 : Nat) ≤ 0 := hf
      omega
    | succ f =>
      cases b with
      | true =>
        show parseJsonValue (f + 1) (("true").toList ++ rest)
          = some (PyVal.bool true, rest)
        exact (parseJsonValue_literals f rest).2.1
      | false =>
        show parseJsonValue (f + 1) (("false").toList ++ rest)
          = some (PyVal.bool false, rest)
        exact (parseJsonValue_literals f rest).2.2
  | PyVal.int n, fuel, rest => by
    intro _ hf h1 h2
    cases fuel with
    | zero =>
      have hz : (1 : Nat) ≤ 0 := hf
      omega
    | succ f =>
      show parseJsonValue (f + 1) (intToChars n ++ rest) = some (PyVal.int n, rest)
      cases n with
      | ofNat m =>
        obtain ⟨c0, cs, hm⟩ : ∃ c0 cs, natToChars m = c0 :: cs := by
          cases hx : natToChars m with
          | nil => exact absurd hx (natToChars_ne_nil m)
          | cons c0 cs => exact ⟨c0, cs, rfl⟩
        have hd : c0.isDigit = true := by
          have hall := natToChars_all_digits m
          rw [hm, List.all_cons, Bool.and_eq_true] at hall
          exact hall.1
        rw [show intToChars (Int.ofNat m) = natToChars m from rfl, hm,
          List.cons_append, parseJsonValue_num_dispatch f c0 (cs ++ rest) (Or.inl hd),
          ← List.cons_append, ← hm]
        exact parseJsonNumber_intToChars (Int.ofNat m) rest h1 h2
      | negSucc m =>
        rw [show intToChars (Int.negSucc m) ++ rest
            = '-' :: (natToChars (m + 1) ++ rest) from rfl,
          parseJsonValue_num_dispatch f '-' (natToChars (m + 1) ++ rest) (Or.inr rfl)]
        exact parseJsonNumber_intToChars (Int.negSucc m) rest h1 h2
  | PyVal.float lit, fuel, rest => by
    intro hg _ _ _
    exact absurd hg (by simp [goodVal])
  | PyVal.str s, fuel, rest => by
    intro _ hf _ _
    cases fuel with
    | zero =>
      have h1 : (1 : Nat) ≤ 0 := hf
      omega
    | succ f => exact parseJsonValue_quote f s rest
  | PyVal.list xs, fuel, rest => by
    intro hg hf _ _
    have hgl : goodList xs = true := hg
    cases fuel with
    | zero =>
      have h1 : pvFuelL xs + 1 ≤ 0 := hf
      omega
    | succ f =>
      have h1 : pvFuelL xs + 1 ≤ f + 1 := hf
      have hfl : pvFuelL xs ≤ f := by omega
      rw [show toAgtypeValue (PyVal.list xs) ++ rest
          = '[' :: (toAgtypeList xs ++ ']' :: rest) from by
        show ('[' :: (toAgtypeList xs ++ [']'])) ++ rest = _
        simp]
      rw [parseJsonValue_openBracket,
        encList_append_skipWs xs ']' rest hgl (by decide)]
      exact parse_enc_list xs f rest [] hgl hfl
  | PyVal.dict xs, fuel, rest => by
    intro hg hf _ _
    have hgd : goodDict xs = true := hg
    cases fuel with
    | zero =>
      have h1 : pvFuelD xs + 1 ≤ 0 := hf
      omega
    | succ f =>
      have h1 : pvFuelD xs + 1 ≤ f + 1 := hf
      have hfd : pvFuelD xs ≤ f := by omega
      rw [show toAgtypeValue (PyVal.dict xs) ++ rest
          = lbrace :: (toAgtypeDict xs ++ rbrace :: rest) from by
        show (lbrace :: (toAgtypeDict xs ++ [rbrace])) ++ rest = _
        simp]
      rw [parseJsonValue_openBrace,
        encDict_append_skipWs xs rbrace rest (by decide)]
      exact parse_enc_dict xs f rest [] hgd hfd (fun p _ => rfl)

/-- The JSON array parser undoes the element encoding of `to_agtype_value`
up to the closing bracket. -/
theorem parse_enc_list : ∀ (xs : List PyVal) (fuel : Nat) (rest : List Char)
    (acc : List PyVal), goodList xs = true → pvFuelL xs ≤ fuel →
    parseJsonArr fuel (toAgtypeList xs ++ ']' :: rest) acc
      = some (PyVal.list (acc.reverse ++ xs), rest)
  | [], fuel, rest, acc => by
    intro _ hf
    cases fuel with
    | zero =>
      have h1 : (1 : Nat) ≤ 0 := hf
      omega
    | succ f =>
      rw [show toAgtypeList [] ++ ']' :: rest = ']' :: rest from rfl, parseJsonArr_succ]
      show some (PyVal.list acc.reverse, rest) = some (PyVal.list (acc.reverse ++ []), rest)
      simp
  | v :: t, fuel, rest, acc => by
    intro hg hf
    obtain ⟨hgv, hgt⟩ : goodVal v = true ∧ goodList t = true := by
      rw [show goodList (v :: t) = (goodVal v && goodList t) from rfl,
        Bool.and_eq_true] at hg
      exact hg
    cases fuel with
    | zero =>
      have h1 : Nat.max (pvFuel v) (pvFuelL t) + 1 ≤ 0 := hf
      omega
    | succ f =>
      have h1 : Nat.max (pvFuel v) (pvFuelL t) + 1 ≤ f + 1 := hf
      have hmax : Nat.max (pvFuel v) (pvFuelL t) ≤ f := by omega
      have hb1 : pvFuel v ≤ f := le_trans (Nat.le_max_left _ _) hmax
      have hb2 : pvFuelL t ≤ f := le_trans (Nat.le_max_right _ _) hmax
      obtain ⟨c0, t0, he, hw, hbr, hrb, hcm⟩ := encHead_shape v hgv
      cases t with
      | nil =>
        rw [show toAgtypeList [v] = toAgtypeValue v from rfl]
        rw [parseJsonArr_succ, he]
        simp only [List.cons_append]
        rw [if_neg (by intro hx; rw [hbr] at hx; exact hx)]
        rw [show c0 :: (t0 ++ ']' :: rest) = toAgtypeValue v ++ ']' :: rest from by
          rw [he]; rfl]
        have hgu := guard_head ']' rest (by decide) (char_eq_false_of_toNat (by decide))
          (char_eq_false_of_toNat (by decide)) (char_eq_false_of_toNat (by decide))
        rw [parse_enc v f (']' :: rest) hgv hb1 hgu.1 hgu.2]
        show some (PyVal.list (v :: acc).reverse, rest)
          = some (PyVal.list (acc.reverse ++ [v]), rest)
        rw [List.reverse_cons]
      | cons w t2 =>
        rw [show toAgtypeList (v :: w :: t2)
            = toAgtypeValue v ++ ',' :: ' ' :: toAgtypeList (w :: t2) from rfl]
        simp only [List.cons_append, List.append_assoc]
        rw [parseJsonArr_succ, he]
        simp only [List.cons_append]
        rw [if_neg (by intro hx; rw [hbr] at hx; exact hx)]
        rw [show c0 :: (t0 ++ ',' :: ' ' :: (toAgtypeList (w :: t2) ++ ']' :: rest))
            = toAgtypeValue v ++ ',' :: ' ' :: (toAgtypeList (w :: t2) ++ ']' :: rest)
            from by rw [he]; rfl]
        have hgu := guard_head ',' (' ' :: (toAgtypeList (w :: t2) ++ ']' :: rest))
          (by decide) (char_eq_false_of_toNat (by decide))
          (char_eq_false_of_toNat (by decide)) (char_eq_false_of_toNat (by decide))
        rw [parse_enc v f (',' :: ' ' :: (toAgtypeList (w :: t2) ++ ']' :: rest))
          hgv hb1 hgu.1 hgu.2]
        show parseJsonArr f
            ((' ' :: (toAgtypeList (w :: t2) ++ ']' :: rest)).dropWhile isJsonWs)
            (v :: acc)
          = some (PyVal.list (acc.reverse ++ v :: w :: t2), rest)
        rw [show (' ' :: (toAgtypeList (w :: t2) ++ ']' :: rest)).dropWhile isJsonWs
            = toAgtypeList (w :: t2) ++ ']' :: rest from by
          rw [List.dropWhile_cons, if_pos (by decide)]
          exact encList_append_skipWs (w :: t2) ']' rest hgt (by decide)]
        rw [parse_enc_list (w :: t2) f rest (v :: acc) hgt hb2]
        simp

/-- The JSON object parser undoes the entry encoding of `to_agtype_value`
up to the closing brace, appending fresh keys in order. -/
theorem parse_enc_dict : ∀ (xs : List (List Char × PyVal)) (fuel : Nat)
    (rest : List Char) (acc : List (List Char × PyVal)),
    goodDict xs = true → pvFuelD xs ≤ fuel →
    (∀ p ∈ xs, hasKeyAssoc acc p.1 = false) →
    parseJsonObj fuel (toAgtypeDict xs ++ rbrace :: rest) acc
      = some (PyVal.dict (acc ++ xs), rest)
  | [], fuel, rest, acc => by
    intro _ hf _
    cases fuel with
    | zero =>
      have h1 : (1 : Nat) ≤ 0 := hf
      omega
    | succ f =>
      rw [show toAgtypeDict [] ++ rbrace :: rest = rbrace :: rest from rfl,
        parseJsonObj_succ]
      show some (PyVal.dict acc, rest) = some (PyVal.dict (acc ++ []), rest)
      simp
  | (k, v) :: t, fuel, rest, acc => by
    intro hg hf hfresh
    obtain ⟨⟨⟨hpk, hnk⟩, hgv⟩, hgt⟩ : ((plainKey k = true
        ∧ (!hasKeyAssoc t k) = true) ∧ goodVal v = true) ∧ goodDict t = true := by
      rw [show goodDict ((k, v) :: t)
          = (plainKey k && !hasKeyAssoc t k && goodVal v && goodDict t) from rfl,
        Bool.and_eq_true, Bool.and_eq_true, Bool.and_eq_true] at hg
      exact hg
    cases fuel with
    | zero =>
      have h1 : Nat.max (pvFuel v) (pvFuelD t) + 1 ≤ 0 := hf
      omega
    | succ f =>
      have h1 : Nat.max (pvFuel v) (pvFuelD t) + 1 ≤ f + 1 := hf
      have hmax : Nat.max (pvFuel v) (pvFuelD t) ≤ f := by omega
      have hb1 : pvFuel v ≤ f := le_trans (Nat.le_max_left _ _) hmax
      have hb2 : pvFuelD t ≤ f := le_trans (Nat.le_max_right _ _) hmax
      have hkacc : hasKeyAssoc acc k = false := hfresh (k, v) (List.mem_cons_self _ _)
      cases t with
      | nil =>
        rw [show toAgtypeDict [(k, v)]
            = '"' :: k ++ '"' :: ':' :: ' ' :: toAgtypeValue v from rfl]
        simp only [List.cons_append, List.append_assoc]
        rw [parseJsonObj_succ]
        simp only []
        rw [if_neg (by intro he; exact absurd (congrArg Char.toNat he) (by decide)),
          if_pos True.intro]
        rw [parseStrBody_plain k (':' :: ' ' :: (toAgtypeValue v ++ rbrace :: rest)) hpk]
        show (match parseJsonValue f
            ((' ' :: (toAgtypeValue v ++ rbrace :: rest)).dropWhile isJsonWs) with
          | some (v2, r3) =>
            (match r3.dropWhile isJsonWs with
             | ',' :: r4 => parseJsonObj f (r4.dropWhile isJsonWs) (dictSet acc k v2)
             | c5 :: r4 =>
               if c5 = rbrace then some (PyVal.dict (dictSet acc k v2), r4)
               else Option.none
             | [] => Option.none)
          | Option.none => Option.none)
          = some (PyVal.dict (acc ++ [(k, v)]), rest)
        rw [show (' ' :: (toAgtypeValue v ++ rbrace :: rest)).dropWhile isJsonWs
            = toAgtypeValue v ++ rbrace :: rest from by
          rw [List.dropWhile_cons, if_pos (by decide)]
          exact encVal_append_skipWs v rbrace rest hgv (by decide)]
        have hgu := guard_head rbrace rest (by decide)
          (char_eq_false_of_toNat (by decide)) (char_eq_false_of_toNat (by decide))
          (char_eq_false_of_toNat (by decide))
        rw [parse_enc v f (rbrace :: rest) hgv hb1 hgu.1 hgu.2]
        show some (PyVal.dict (dictSet acc k v), rest)
          = some (PyVal.dict (acc ++ [(k, v)]), rest)
        rw [dictSet_fresh hkacc]
      | cons q t2 =>
        rw [show toAgtypeDict ((k, v) :: q :: t2)
            = ('"' :: k ++ '"' :: ':' :: ' ' :: toAgtypeValue v) ++ ',' :: ' '
              :: toAgtypeDict (q :: t2) from rfl]
        simp only [List.cons_append, List.append_assoc]
        rw [parseJsonObj_succ]
        simp only []
        rw [if_neg (by intro he; exact absurd (congrArg Char.toNat he) (by decide)),
          if_pos True.intro]
        rw [parseStrBody_plain k
          (':' :: ' ' :: (toAgtypeValue v ++ ',' :: ' '
            :: (toAgtypeDict (q :: t2) ++ rbrace :: rest))) hpk]
        show (match parseJsonValue f
            ((' ' :: (toAgtypeValue v ++ ',' :: ' '
              :: (toAgtypeDict (q :: t2) ++ rbrace :: rest))).dropWhile isJsonWs) with
          | some (v2, r3) =>
            (match r3.dropWhile isJsonWs with
             | ',' :: r4 => parseJsonObj f (r4.dropWhile isJsonWs) (dictSet acc k v2)
             | c5 :: r4 =>
               if c5 = rbrace then some (PyVal.dict (dictSet acc k v2), r4)
               else Option.none
             | [] => Option.none)
          | Option.none => Option.none)
          = some (PyVal.dict (acc ++ (k, v) :: q :: t2), rest)
        rw [show (' ' :: (toAgtypeValue v ++ ',' :: ' '
            :: (toAgtypeDict (q :: t2) ++ rbrace :: rest))).dropWhile isJsonWs
            = toAgtypeValue v ++ ',' :: ' '
              :: (toAgtypeDict (q :: t2) ++ rbrace :: rest) from by
          rw [List.dropWhile_cons, if_pos (by decide)]
          exact encVal_append_skipWs v ','
            (' ' :: (toAgtypeDict (q :: t2) ++ rbrace :: rest)) hgv (by decide)]
        have hgu := guard_head ','
          (' ' :: (toAgtypeDict (q :: t2) ++ rbrace :: rest)) (by decide)
          (char_eq_false_of_toNat (by decide)) (char_eq_false_of_toNat (by decide))
          (char_eq_false_of_toNat (by decide))
        rw [parse_enc v f (',' :: ' ' :: (toAgtypeDict (q :: t2) ++ rbrace :: rest))
          hgv hb1 hgu.1 hgu.2]
        show parseJsonObj f
            ((' ' :: (toAgtypeDict (q :: t2) ++ rbrace :: rest)).dropWhile isJsonWs)
            (dictSet acc k v)
          = some (PyVal.dict (acc ++ (k, v) :: q :: t2), rest)
        rw [show (' ' :: (toAgtypeDict (q :: t2) ++ rbrace :: rest)).dropWhile isJsonWs
            = toAgtypeDict (q :: t2) ++ rbrace :: rest from by
          rw [List.dropWhile_cons, if_pos (by decide)]
          exact encDict_append_skipWs (q :: t2) rbrace rest (by decide)]
        rw [dictSet_fresh hkacc]
        rw [parse_enc_dict (q :: t2) f rest (acc ++ [(k, v)]) hgt hb2 (by
          intro p hp
          rw [hasKeyAssoc_append]
          have hfa : hasKeyAssoc acc p.1 = false :=
            hfresh p (List.mem_cons_of_mem _ hp)
          have hfk : hasKeyAssoc [(k, v)] p.1 = false := by
            show ((if k = p.1 then some v else Option.none).isSome) = false
            rw [if_neg (by
              intro he
              have hmem := hasKeyAssoc_of_mem hp
              rw [← he] at hmem
              rw [Bool.not_eq_true'] at hnk
              rw [hnk] at hmem
              exact absurd hmem (by simp))]
            rfl
          rw [hfa, hfk]
          rfl)]
        simp

end

/-- The encoding of a good value is non-empty. -/
theorem encLen_pos (v : PyVal) (hg : goodVal v = true) :
    1 ≤ (toAgtypeValue v).length := by
  obtain ⟨c0, t0, he, _, _, _, _⟩ := encHead_shape v hg
  rw [he, List.length_cons]
  omega

mutual

/-- The parsing fuel needed for a good value is bounded by its encoding
length. -/
theorem pvFuel_le : ∀ v : PyVal, goodVal v = true →
    pvFuel v ≤ (toAgtypeValue v).length
  | PyVal.none => by
    intro _
    decide
  | PyVal.bool b => by
    intro _
    cases b <;> decide
  | PyVal.int n => by
    intro _
    show 1 ≤ (toAgtypeValue (PyVal.int n)).length
    cases n with
    | ofNat m =>
      obtain ⟨c0, cs, hm⟩ : ∃ c0 cs, natToChars m = c0 :: cs := by
        cases hx : natToChars m with
        | nil => exact absurd hx (natToChars_ne_nil m)
        | cons c0 cs => exact ⟨c0, cs, rfl⟩
      show (1 : Nat) ≤ (natToChars m).length
      rw [hm, List.length_cons]
      omega
    | negSucc m =>
      show (1 : Nat) ≤ ('-' :: natToChars (m + 1)).length
      rw [List.length_cons]
      omega
  | PyVal.float lit => by
    intro hg
    exact absurd hg (by simp [goodVal])
  | PyVal.str s => by
    intro _
    show (1 : Nat) ≤ ('"' :: (escapeAgtypeString s ++ ['"'])).length
    rw [List.length_cons]
    omega
  | PyVal.list xs => by
    intro hg
    have h2 := pvFuelL_le xs hg
    show pvFuelL xs + 1 ≤ ('[' :: (toAgtypeList xs ++ [']'])).length
    rw [List.length_cons, List.length_append]
    simp only [List.length_cons, List.length_nil]
    omega
  | PyVal.dict xs => by
    intro hg
    have h2 := pvFuelD_le xs hg
    show pvFuelD xs + 1 ≤ (lbrace :: (toAgtypeDict xs ++ [rbrace])).length
    rw [List.length_cons, List.length_append]
    simp only [List.length_cons, List.length_nil]
    omega

/-- The array-parsing fuel for good elements is bounded by the encoded
element list length plus one. -/
theorem pvFuelL_le : ∀ xs : List PyVal, goodList xs = true →
    pvFuelL xs ≤ (toAgtypeList xs).length + 1
  | [] => by
    intro _
    decide
  | [v] => by
    intro hg
    have hgv : goodVal v = true := by
      rw [show goodList [v] = (goodVal v && goodList []) from rfl,
        Bool.and_eq_true] at hg
      exact hg.1
    have h1 := pvFuel_le v hgv
    have h3 := encLen_pos v hgv
    show Nat.max (pvFuel v) (pvFuelL []) + 1 ≤ (toAgtypeValue v).length + 1
    have hm : Nat.max (pvFuel v) (pvFuelL []) ≤ (toAgtypeValue v).length :=
      Nat.max_le.mpr ⟨h1, h3⟩
    omega
  | v :: w :: t2 => by
    intro hg
    obtain ⟨hgv, hgt⟩ : goodVal v = true ∧ goodList (w :: t2) = true := by
      rw [show goodList (v :: w :: t2) = (goodVal v && goodList (w :: t2)) from rfl,
        Bool.and_eq_true] at hg
      exact hg
    have h1 := pvFuel_le v hgv
    have h2 := pvFuelL_le (w :: t2) hgt
    show Nat.max (pvFuel v) (pvFuelL (w :: t2)) + 1
      ≤ (toAgtypeValue v ++ ',' :: ' ' :: toAgtypeList (w :: t2)).length + 1
    rw [List.length_append, List.length_cons, List.length_cons]
    have hm : Nat.max (pvFuel v) (pvFuelL (w :: t2))
        ≤ (toAgtypeValue v).length + ((toAgtypeList (w :: t2)).length + 1) :=
      Nat.max_le.mpr ⟨by omega, by omega⟩
    omega

/-- The object-parsing fuel for good entries is bounded by the encoded
entry list length plus one. -/
theorem pvFuelD_le : ∀ xs : List (List Char × PyVal), goodDict xs = true →
    pvFuelD xs ≤ (toAgtypeDict xs).length + 1
  | [] => by
    intro _
    decide
  | [(k, v)] => by
    intro hg
    have hgv : goodVal v = true := by
      rw [show goodDict [(k, v)]
          = (plainKey k && (!hasKeyAssoc ([] : List (List Char × PyVal)) k)
            && goodVal v && goodDict []) from rfl,
        Bool.and_eq_true, Bool.and_eq_true] at hg
      exact hg.1.2
    have h1 := pvFuel_le v hgv
    have h3 := encLen_pos v hgv
    show Nat.max (pvFuel v) (pvFuelD []) + 1
      ≤ ('"' :: k ++ '"' :: ':' :: ' ' :: toAgtypeValue v).length + 1
    simp only [List.cons_append, List.length_cons, List.length_append]
    have hm : Nat.max (pvFuel v) (pvFuelD []) ≤ (toAgtypeValue v).length :=
      Nat.max_le.mpr ⟨h1, h3⟩
    omega
  | (k, v) :: q :: t2 => by
    intro hg
    obtain ⟨hgv, hgt⟩ : goodVal v = true ∧ goodDict (q :: t2) = true := by
      rw [show goodDict ((k, v) :: q :: t2)
          = (plainKey k && (!hasKeyAssoc (q :: t2) k)
            && goodVal v && goodDict (q :: t2)) from rfl,
        Bool.and_eq_true, Bool.and_eq_true] at hg
      exact ⟨hg.1.2, hg.2⟩
    have h1 := pvFuel_le v hgv
    have h2 := pvFuelD_le (q :: t2) hgt
    show Nat.max (pvFuel v) (pvFuelD (q :: t2)) + 1
      ≤ (('"' :: k ++ '"' :: ':' :: ' ' :: toAgtypeValue v) ++ ',' :: ' '
        :: toAgtypeDict (q :: t2)).length + 1
    simp only [List.cons_append, List.length_cons, List.length_append]
    have hm : Nat.max (pvFuel v) (pvFuelD (q :: t2))
        ≤ (toAgtypeValue v).length + ((toAgtypeDict (q :: t2)).length + 1) :=
      Nat.max_le.mpr ⟨by omega, by omega⟩
    omega

end

/-- `json.loads` undoes `to_agtype_value` on good values. -/
theorem jsonLoads_enc (v : PyVal) (hg : goodVal v = true) :
    jsonLoads (toAgtypeValue v) = some v := by
  have hb : pvFuel v ≤ (toAgtypeValue v).length + 1 :=
    le_trans (pvFuel_le v hg) (by omega)
  have hp := parse_enc v ((toAgtypeValue v).length + 1) [] hg hb rfl
    (by intro c t h; exact absurd h (by simp))
  rw [List.append_nil] at hp
  unfold jsonLoads
  rw [hp]
  rfl

/-- Dropping a prefix is the identity when no character satisfies the
predicate. -/
theorem dropWhile_id_of_all_not {p : Char → Bool} : ∀ s : List Char,
    s.all (fun c => !p c) = true → s.dropWhile p = s
  | [], _ => rfl
  | c :: t, h => by
    rw [List.all_cons, Bool.and_eq_true] at h
    have hc : p c = false := by
      have h1 := h.1
      rwa [Bool.not_eq_true'] at h1
    rw [List.dropWhile_cons, if_neg (by rw [hc]; simp)]

/-- `str.strip()` is the identity on whitespace-free text. -/
theorem pyStrip_id_of_no_ws (s : List Char)
    (h : s.all (fun c => !isPyWs c) = true) : pyStrip s = s := by
  unfold pyStrip
  rw [dropWhile_id_of_all_not s h,
    dropWhile_id_of_all_not s.reverse (by rw [List.all_reverse]; exact h)]
  exact List.reverse_reverse s

/-- Digits are not Python whitespace. -/
theorem digit_not_pyws (c : Char) (h : c.isDigit = true) : isPyWs c = false := by
  by_cases hw : isPyWs c = true
  · exfalso
    unfold isPyWs at hw
    simp only [Bool.or_eq_true, decide_eq_true_eq] at hw
    rcases hw with ((((h1 | h1) | h1) | h1) | h1) | h1 <;> subst h1
      <;> exact absurd h (by decide)
  · simpa using hw

/-- The integer rendering contains no Python whitespace. -/
theorem intToChars_no_ws (n : Int) :
    (intToChars n).all (fun c => !isPyWs c) = true := by
  have hd : ∀ m : Nat, (natToChars m).all (fun c => !isPyWs c) = true := by
    intro m
    have h := natToChars_all_digits m
    rw [List.all_eq_true] at h ⊢
    intro c hc
    have h2 := digit_not_pyws c (h c hc)
    simp [h2]
  cases n with
  | ofNat m => exact hd m
  | negSucc m =>
    show (('-' :: natToChars (m + 1)).all (fun c => !isPyWs c)) = true
    rw [List.all_cons, hd (m + 1)]
    decide

/-- Python `int()` undoes the integer rendering. -/
theorem pyIntParse_intToChars : ∀ n : Int, pyIntParse (intToChars n) = some n := by
  intro n
  have hstrip : pyStrip (intToChars n) = intToChars n :=
    pyStrip_id_of_no_ws _ (intToChars_no_ws n)
  cases n with
  | ofNat m =>
    obtain ⟨c0, cs, hm⟩ : ∃ c0 cs, natToChars m = c0 :: cs := by
      cases hx : natToChars m with
      | nil => exact absurd hx (natToChars_ne_nil m)
      | cons c0 cs => exact ⟨c0, cs, rfl⟩
    have hd : c0.isDigit = true := by
      have hall := natToChars_all_digits m
      rw [hm, List.all_cons, Bool.and_eq_true] at hall
      exact hall.1
    have hall : (c0 :: cs).all Char.isDigit = true := by
      rw [← hm]
      exact natToChars_all_digits m
    have hstrip2 : pyStrip (c0 :: cs) = c0 :: cs := by
      rw [← hm]
      exact hstrip
    have hdig : digitsToNat (c0 :: cs) = m := by
      rw [← hm]
      exact digitsToNat_natToChars m
    have hsgn : (match c0 :: cs with
        | '-' :: _ => some true
        | '+' :: _ => some false
        | _ => (Option.none : Option Bool)) = Option.none := by
      split
      · rename_i x heq
        injection heq with h1 h2
        rw [h1] at hd
        exact absurd hd (by decide)
      · rename_i x heq
        injection heq with h1 h2
        rw [h1] at hd
        exact absurd hd (by decide)
      · rfl
    show pyIntParse (natToChars m) = some (Int.ofNat m)
    rw [hm]
    simp only [pyIntParse]
    rw [hstrip2]
    rw [hsgn]
    simp only []
    rw [hall]
    simp only [List.isEmpty_cons, Bool.not_false, Bool.and_self]
    rw [if_pos True.intro]
    rw [if_neg (by simp)]
    rw [hdig]
    rfl
  | negSucc m =>
    have hstrip2 : pyStrip ('-' :: natToChars (m + 1)) = '-' :: natToChars (m + 1) :=
      hstrip
    have hall : (natToChars (m + 1)).all Char.isDigit = true :=
      natToChars_all_digits (m + 1)
    have hne : (natToChars (m + 1)).isEmpty = false := by
      cases hx : natToChars (m + 1) with
      | nil => exact absurd hx (natToChars_ne_nil (m + 1))
      | cons c0 cs => rfl
    show pyIntParse ('-' :: natToChars (m + 1)) = some (Int.negSucc m)
    simp only [pyIntParse]
    rw [hstrip2]
    simp only []
    rw [show List.drop 1 ('-' :: natToChars (m + 1)) = natToChars (m + 1) from rfl,
      hne, hall, digitsToNat_natToChars]
    simp only [Bool.not_false, Bool.and_self]
    rw [if_pos True.intro]
    rw [if_pos True.intro]
    congr 1

/-- Whether a decoded value is untouched by the id/properties graph-record
rename of `_parse_agtype_result`: any non-dict, or a dict lacking one of the
two keys. -/
def itemSafe : PyVal → Bool
  | PyVal.dict ys =>
    !(hasKeyAssoc ys (("id").toList) && hasKeyAssoc ys (("properties").toList))
  | _ => true

/-- Whether the decoder's normalisation leaves the decoded value itself
unchanged: the top level and (for arrays) each item must be rename-safe. -/
def renameSafe : PyVal → Bool
  | PyVal.dict xs => itemSafe (PyVal.dict xs)
  | PyVal.list xs => xs.all itemSafe
  | _ => true

/-- The shape `_parse_agtype_result` returns for a decoded JSON value:
dicts come back as themselves, anything else under the `value` key. -/
def wrapDecoded : PyVal → PyVal
  | PyVal.dict xs => PyVal.dict xs
  | v => PyVal.dict [((("value").toList), v)]

/-- Whether the decoder's strip passes (str.strip and the two `::tag` regex
substitutions) leave a text unchanged. -/
def stripInert (s : List Char) : Bool :=
  (pyStrip s == s) && (stripBracketTags s == s) && (stripScalarTag s == s)

/-- The graph-record rename is the identity on rename-safe dict entries. -/
theorem renameGraphDict_id (xs : List (List Char × PyVal))
    (h : itemSafe (PyVal.dict xs) = true) : renameGraphDict xs = xs := by
  have h2 : (!(hasKeyAssoc xs (("id").toList)
      && hasKeyAssoc xs (("properties").toList))) = true := h
  rw [Bool.not_eq_true'] at h2
  unfold renameGraphDict
  rw [if_neg (by rw [h2]; simp)]

/-- The per-item rename is the identity on rename-safe items. -/
theorem renameItem_id (x : PyVal) (h : itemSafe x = true) : renameItem x = x := by
  cases x with
  | dict xs =>
    have h2 : (!(hasKeyAssoc xs (("id").toList)
        && hasKeyAssoc xs (("properties").toList))) = true := h
    rw [Bool.not_eq_true'] at h2
    show (if (hasKeyAssoc xs (("id").toList)
        && hasKeyAssoc xs (("properties").toList)) = true
      then PyVal.dict (renameGraphDict xs) else PyVal.dict xs) = PyVal.dict xs
    rw [if_neg (by rw [h2]; simp)]
  | none => rfl
  | bool b => rfl
  | int n => rfl
  | float lit => rfl
  | str s => rfl
  | list l => rfl

/-- Mapping the per-item rename over rename-safe items is the identity. -/
theorem renameItems_id : ∀ xs : List PyVal, xs.all itemSafe = true →
    xs.map renameItem = xs
  | [], _ => rfl
  | x :: t, h => by
    rw [List.all_cons, Bool.and_eq_true] at h
    rw [List.map_cons, renameItem_id x h.1, renameItems_id t h.2]

/-- A quoted text passes the JSON-looking guard. -/
theorem startsJsonLike_quote (X : List Char) : startsJsonLike ('"' :: X) = true := by
  unfold startsJsonLike
  simp

/-- A bracketed text passes the JSON-looking guard. -/
theorem startsJsonLike_bracket (X : List Char) : startsJsonLike ('[' :: X) = true := by
  unfold startsJsonLike
  simp

/-- A braced text passes the JSON-looking guard. -/
theorem startsJsonLike_brace (X : List Char) : startsJsonLike (lbrace :: X) = true := by
  unfold startsJsonLike
  simp

/-- C2 (corrected): the agtype round-trip
`_parse_agtype_result ∘ to_agtype_value` returns the encoded value in the
decoder's wrapper shape (dicts as themselves, anything else under the
`value` key) for every good value — no floats, dicts with distinct plain
keys — whose encoding is left unchanged by the decoder's strip passes and
whose decoded form is untouched by the id/properties rename. The original
unconditional claim is refuted by `agtype_roundtrip_counterexample`: a
plain string containing `\x7d::v` is corrupted by the bracket-tag regex
before JSON parsing. -/
theorem agtype_roundtrip_spec (v : PyVal) (hg : goodVal v = true)
    (hrs : renameSafe v = true) (hss : stripInert (toAgtypeValue v) = true) :
    decodeAgtypeCell (toAgtypeValue v) = wrapDecoded v := by
  obtain ⟨⟨hps, hbr2⟩, hsc⟩ : (pyStrip (toAgtypeValue v) = toAgtypeValue v
      ∧ stripBracketTags (toAgtypeValue v) = toAgtypeValue v)
      ∧ stripScalarTag (toAgtypeValue v) = toAgtypeValue v := by
    have h2 : ((pyStrip (toAgtypeValue v) == toAgtypeValue v)
        && (stripBracketTags (toAgtypeValue v) == toAgtypeValue v)
        && (stripScalarTag (toAgtypeValue v) == toAgtypeValue v)) = true := hss
    rw [Bool.and_eq_true, Bool.and_eq_true] at h2
    exact ⟨⟨beq_iff_eq.mp h2.1.1, beq_iff_eq.mp h2.1.2⟩, beq_iff_eq.mp h2.2⟩
  unfold decodeAgtypeCell
  rw [hps, hbr2, hsc, hps]
  cases v with
  | float lit => exact absurd hg (by simp [goodVal])
  | none => decide
  | bool b => cases b <;> decide
  | int n =>
    by_cases hsl : startsJsonLike (toAgtypeValue (PyVal.int n)) = true
    · unfold decodeCascade
      rw [if_pos hsl]
      have hdb : decodeJsonBranch (toAgtypeValue (PyVal.int n))
          = some (PyVal.dict [((("value").toList), PyVal.int n)]) := by
        unfold decodeJsonBranch
        rw [jsonLoads_enc (PyVal.int n) hg]
      rw [hdb]
      rfl
    · unfold decodeCascade
      rw [if_neg hsl]
      have hpi : pyIntParse (toAgtypeValue (PyVal.int n)) = some n :=
        pyIntParse_intToChars n
      unfold decodeNumeric
      rw [hpi]
      rfl
  | str s =>
    have hsl : startsJsonLike (toAgtypeValue (PyVal.str s)) = true := by
      show startsJsonLike ('"' :: (escapeAgtypeString s ++ ['"'])) = true
      exact startsJsonLike_quote _
    unfold decodeCascade
    rw [if_pos hsl]
    have hdb : decodeJsonBranch (toAgtypeValue (PyVal.str s))
        = some (PyVal.dict [((("value").toList), PyVal.str s)]) := by
      unfold decodeJsonBranch
      rw [jsonLoads_enc (PyVal.str s) hg]
    rw [hdb]
    rfl
  | list xs =>
    have hsl : startsJsonLike (toAgtypeValue (PyVal.list xs)) = true := by
      show startsJsonLike ('[' :: (toAgtypeList xs ++ [']'])) = true
      exact startsJsonLike_bracket _
    have hmap : xs.map renameItem = xs := renameItems_id xs hrs
    unfold decodeCascade
    rw [if_pos hsl]
    have hdb : decodeJsonBranch (toAgtypeValue (PyVal.list xs))
        = some (PyVal.dict [((("value").toList), PyVal.list (xs.map renameItem))]) := by
      unfold decodeJsonBranch
      rw [jsonLoads_enc (PyVal.list xs) hg]
    rw [hdb, hmap]
    rfl
  | dict xs =>
    have hsl : startsJsonLike (toAgtypeValue (PyVal.dict xs)) = true := by
      show startsJsonLike (lbrace :: (toAgtypeDict xs ++ [rbrace])) = true
      exact startsJsonLike_brace _
    have hren : renameGraphDict xs = xs := renameGraphDict_id xs hrs
    unfold decodeCascade
    rw [if_pos hsl]
    have hdb : decodeJsonBranch (toAgtypeValue (PyVal.dict xs))
        = some (PyVal.dict (renameGraphDict xs)) := by
      unfold decodeJsonBranch
      rw [jsonLoads_enc (PyVal.dict xs) hg]
    rw [hdb, hren]
    rfl

/-- C2 counterexample: for the supported string value `\x7d::v`, the decoder
does not return the value (bare or under the `value` wrapper): the
bracket-tag regex deletes `::v` from inside the quoted JSON text before
parsing, so the round trip yields the wrapped string `\x7d` instead. -/
theorem agtype_roundtrip_counterexample :
    decodeAgtypeCell (toAgtypeValue (PyVal.str (rbrace :: ':' :: ':' :: 'v' :: [])))
      ≠ wrapDecoded (PyVal.str (rbrace :: ':' :: ':' :: 'v' :: []))
    ∧ decodeAgtypeCell (toAgtypeValue (PyVal.str (rbrace :: ':' :: ':' :: 'v' :: [])))
      ≠ PyVal.str (rbrace :: ':' :: ':' :: 'v' :: [])
    ∧ goodVal (PyVal.str (rbrace :: ':' :: ':' :: 'v' :: [])) = true := by
  refine ⟨by decide, by decide, by decide⟩

/-- Witness for C2 on a concrete good dict. -/
theorem agtype_roundtrip_spec_witness :
    goodVal (PyVal.dict [((("a").toList), PyVal.int 1)]) = true
    ∧ renameSafe (PyVal.dict [((("a").toList), PyVal.int 1)]) = true
    ∧ stripInert (toAgtypeValue (PyVal.dict [((("a").toList), PyVal.int 1)])) = true
    ∧ decodeAgtypeCell (toAgtypeValue (PyVal.dict [((("a").toList), PyVal.int 1)]))
      = wrapDecoded (PyVal.dict [((("a").toList), PyVal.int 1)]) :=
  ⟨by decide, by decide, by decide,
    agtype_roundtrip_spec (PyVal.dict [((("a").toList), PyVal.int 1)])
      (by decide) (by decide) (by decide)⟩

end AgeOrm
